import Mathlib

/-!
# Settings loader: key normalisation and the loader entry points

A shallow embedding of `internal/settings/load.go`.

* Go's `interface{}` values, as the YAML layer produces them and as the
  normaliser returns them, are the type `Value`.
* A Go map is the list of its entries in the order one `range` over it visits
  them; a map holds each key once (`Value.keysDistinct`).
* A Go function returning `(x, error)` returns a pair whose second component
  is `none` for a nil error.
* The YAML decoder and `fmt` are collaborators: the decoder is a parameter of
  the loaders, `fmt.Sprintf` is string concatenation with the verbs spelled out.
-/

namespace Settings

/-! ## Data model -/

/-- A leaf of a parsed document, also the dynamic type of a map key.
`null` is the nil interface value. A `float64` is carried as the shortest
round-trip decimal text Go prints for it. -/
inductive Scalar
  | str (s : String)
  | int (i : Int)
  | bool (b : Bool)
  | float (text : String)
  | null
  deriving DecidableEq, Repr

/-- A Go `interface{}` value of the kinds this package handles.
`rawMap` is `map[interface{}]interface{}`, `strMap` is `map[string]interface{}`,
`list` is a non-nil `[]interface{}` and `nilList` the nil `[]interface{}`. -/
inductive Value
  | scalar (s : Scalar)
  | list (xs : List Value)
  | nilList
  | rawMap (entries : List (Scalar × Value))
  | strMap (entries : List (String × Value))
  deriving Repr

/-- The nil interface value, returned beside a non-nil error. -/
def Value.nil : Value := .scalar .null

/-- Go errors as this package meets and builds them. `eof` is the sentinel
`io.EOF`, `external` any other error of a collaborator, `errorf` the result of
`errors.Errorf` and `wrap` the result of `errors.Wrap`. -/
inductive GoError
  | eof
  | external (msg : String)
  | errorf (msg : String)
  | wrap (cause : GoError) (msg : String)
  deriving DecidableEq, Repr

/-- The text of `err.Error()`. -/
def GoError.message : GoError → String
  | .eof => "EOF"
  | .external msg => msg
  | .errorf msg => msg
  | .wrap cause msg => msg ++ ": " ++ cause.message

/-- The verb `%#v` on a key. Integers print in decimal, booleans as
`true`/`false`, nil as `<nil>`, a string in double quotes. -/
def goSyntax : Scalar → String
  | .str s => s.quote
  | .int i => toString i
  | .bool b => toString b
  | .float text => text
  | .null => "<nil>"

/-- The assignment `dict[k] = v` on a map held as its list of entries. -/
def mapSet (dict : List (String × Value)) (k : String) (v : Value) : List (String × Value) :=
  match dict with
  | [] => [(k, v)]
  | (k0, v0) :: rest => if k0 = k then (k, v) :: rest else (k0, v0) :: mapSet rest k v

/-- The call `append(s, v)` on a slice that may be nil (`none`). -/
def goAppend (s : Option (List Value)) (v : Value) : Option (List Value) :=
  match s with
  | none => some [v]
  | some xs => some (xs ++ [v])

/-- A slice variable stored into an `interface{}`. -/
def Value.ofSlice : Option (List Value) → Value
  | none => .nilList
  | some xs => .list xs

/-! ## The normaliser -/

/-- The function `formatInvalidKeyError` of load.go. -/
def formatInvalidKeyError (keyPrefix : String) (key : Scalar) : GoError :=
  let location := if keyPrefix = "" then "at top level" else "in " ++ keyPrefix
  .errorf ("Non-string key " ++ location ++ ": " ++ goSyntax key)

mutual
/-- The function `convertToStringKeysRecursive` of load.go. On the nil slice the
loop body never runs and the nil `convertedList` is returned. -/
def convertToStringKeysRecursive : Value → String → Value × Option GoError
  | .rawMap mapping, keyPrefix => convertMapLoop mapping keyPrefix []
  | .list xs, keyPrefix => convertListLoop xs keyPrefix 0 none
  | .nilList, _ => (Value.ofSlice none, none)
  | .scalar s, _ => (.scalar s, none)
  | .strMap entries, _ => (.strMap entries, none)
/-- The loop `for key, entry := range mapping` over the entries still to be
visited, `dict` being the map built so far. -/
def convertMapLoop : List (Scalar × Value) → String → List (String × Value) → Value × Option GoError
  | [], _, dict => (.strMap dict, none)
  | (key, entry) :: rest, keyPrefix, dict =>
    match key with
    | .str str =>
      let newKeyPrefix := if keyPrefix = "" then str else keyPrefix ++ "." ++ str
      match convertToStringKeysRecursive entry newKeyPrefix with
      | (_, some err) => (Value.nil, some err)
      | (convertedEntry, none) => convertMapLoop rest keyPrefix (mapSet dict str convertedEntry)
    | _ => (Value.nil, some (formatInvalidKeyError keyPrefix key))
/-- The loop `for index, entry := range list` from position `index` on,
`convertedList` being the slice built so far. -/
def convertListLoop : List Value → String → Nat → Option (List Value) → Value × Option GoError
  | [], _, _, convertedList => (Value.ofSlice convertedList, none)
  | entry :: rest, keyPrefix, index, convertedList =>
    let newKeyPrefix := keyPrefix ++ "[" ++ toString index ++ "]"
    match convertToStringKeysRecursive entry newKeyPrefix with
    | (_, some err) => (Value.nil, some err)
    | (convertedEntry, none) =>
      convertListLoop rest keyPrefix (index + 1) (goAppend convertedList convertedEntry)
end

/-! ## The loaders -/

/-- The record `Options`; its declaration is outside load.go, which reads the
one field `prefix`. -/
structure Options where
  prefix_ : String
  deriving DecidableEq, Repr

/-- The opening of `Load` and `LoadData`: `options := &Options{}`, then every
`op` of `ops` applied to it in order. An `op` updates the record in place; here
it returns the updated record. -/
def applyOptions (ops : List (Options → Options)) : Options :=
  ops.foldl (fun options op => op options) ⟨""⟩

/-- What a loader call ends in: the pair `(Settings, error)` it returns, a nil
map being `none`, or a panic of the type assertion. -/
inductive Outcome
  | returned (settings : Option (List (String × Value))) (err : Option GoError)
  | panicked
  deriving Repr

/-- The function `Load` of load.go. `decode r` is what `Decode(&s)` does on the
reader `r`: the map it leaves in `s` and the error it reports. -/
def Load {ρ : Type} (decode : ρ → List (Scalar × Value) × Option GoError) (r : ρ)
    (ops : List (Options → Options)) : Outcome :=
  let options := applyOptions ops
  match decode r with
  | (_, some err) =>
    if err = GoError.eof then .returned (some []) none
    else .returned none (some (.wrap err "failed to read settings"))
  | (s, none) =>
    match convertToStringKeysRecursive (.rawMap s) "" with
    | (_, some err) => .returned none (some err)
    | (converted, none) =>
      match converted with
      | .strMap settings =>
        if options.prefix_ ≠ "" then
          .returned (some [(options.prefix_, .strMap settings)]) none
        else
          .returned (some settings) none
      | _ => .panicked

/-- The function `LoadData` of load.go. `unmarshal data` is what
`yaml.Unmarshal(data, s)` does: the map it leaves in `s` and the error it
reports. Bytes are numbers below 256. -/
def LoadData (unmarshal : List Nat → List (Scalar × Value) × Option GoError) (data : List Nat)
    (ops : List (Options → Options)) : Outcome :=
  let options := applyOptions ops
  match unmarshal data with
  | (_, some err) => .returned none (some err)
  | (s, none) =>
    match convertToStringKeysRecursive (.rawMap s) "" with
    | (_, some err) => .returned none (some err)
    | (converted, none) =>
      match converted with
      | .strMap settings =>
        if options.prefix_ ≠ "" then
          .returned (some [(options.prefix_, .strMap settings)]) none
        else
          .returned (some settings) none
      | _ => .panicked

/-- The function `LoadFile` of load.go, over the set `opened` of the file
descriptors that are open. `osOpen path opened` is what `os.Open(path)` answers:
an error, or the file to read with the descriptor it holds, which joins the open
ones. Nothing in `LoadFile` or `Load` closes the file. -/
def LoadFile {ρ : Type} (osOpen : String → List Nat → Except GoError (ρ × Nat))
    (decode : ρ → List (Scalar × Value) × Option GoError) (path : String)
    (ops : List (Options → Options)) (opened : List Nat) : Outcome × List Nat :=
  match osOpen path opened with
  | .error err => (.returned none (some err), opened)
  | .ok (r, fd) => (Load decode r ops, fd :: opened)

/-- The loop of `LoadFiles` over the paths still to load, `m` being the settings
merged so far and `world` the state the loads act on. `loadFile` and `merge`
stand for `LoadFile` and `Merge`. -/
def loadFilesLoop {σ : Type}
    (loadFile : String → List (Options → Options) → σ → Outcome × σ)
    (merge : Option (List (String × Value)) → Option (List (String × Value)) →
      Option (List (String × Value)) × Option GoError)
    (ops : List (Options → Options)) :
    List String → Option (List (String × Value)) → σ → Outcome × σ
  | [], m, world => (.returned m none, world)
  | path :: rest, m, world =>
    match loadFile path ops world with
    | (.panicked, world1) => (.panicked, world1)
    | (.returned _ (some err), world1) => (.returned none (some err), world1)
    | (.returned settings none, world1) =>
      match merge m settings with
      | (_, some err) => (.returned none (some err), world1)
      | (merged, none) => loadFilesLoop loadFile merge ops rest merged world1

/-- The function `LoadFiles` of load.go: the loop started from the empty,
non-nil settings map. With `LoadFile osOpen decode` for `loadFile` the state is
the set of open descriptors. -/
def LoadFiles {σ : Type}
    (loadFile : String → List (Options → Options) → σ → Outcome × σ)
    (merge : Option (List (String × Value)) → Option (List (String × Value)) →
      Option (List (String × Value)) × Option GoError)
    (paths : List String) (ops : List (Options → Options)) (world : σ) : Outcome × σ :=
  loadFilesLoop loadFile merge ops paths (some []) world


/-! ## Vocabulary of the properties -/

/-- A document tree with the container representation forgotten: a leaf, a
sequence of trees, or a mapping from keys to trees. -/
inductive Tree
  | leaf (s : Scalar)
  | seq (items : List Tree)
  | map (entries : List (Scalar × Tree))

mutual
/-- The structure of a value: its scalars, the elements of its sequences in
order, the keys of its maps with the structure of what they map to. A nil and
an empty sequence have the same structure, and so have a raw and a string-keyed
map with the same entries. -/
def Value.shape : Value → Tree
  | .scalar s => .leaf s
  | .list xs => .seq (shapeList xs)
  | .nilList => .seq []
  | .rawMap entries => .map (shapeRaw entries)
  | .strMap entries => .map (shapeStr entries)
/-- The structures of the elements of a sequence. -/
def shapeList : List Value → List Tree
  | [] => []
  | x :: xs => x.shape :: shapeList xs
/-- The structures of the entries of a raw map. -/
def shapeRaw : List (Scalar × Value) → List (Scalar × Tree)
  | [] => []
  | (k, v) :: rest => (k, v.shape) :: shapeRaw rest
/-- The structures of the entries of a string-keyed map. -/
def shapeStr : List (String × Value) → List (Scalar × Tree)
  | [] => []
  | (k, v) :: rest => (Scalar.str k, v.shape) :: shapeStr rest
end

/-- Whether a key is a string. -/
def Scalar.isStr : Scalar → Bool
  | .str _ => true
  | _ => false

mutual
/-- Whether some raw map reachable from the value through raw-map values and
sequence elements has a key that is not a string. -/
def Value.hasNonStringKey : Value → Bool
  | .rawMap entries => entriesHaveNonStringKey entries
  | .list xs => listHasNonStringKey xs
  | _ => false
/-- Whether an entry has a non-string key, or a value that reaches one. -/
def entriesHaveNonStringKey : List (Scalar × Value) → Bool
  | [] => false
  | (k, v) :: rest => !k.isStr || v.hasNonStringKey || entriesHaveNonStringKey rest
/-- Whether an element reaches a non-string key. -/
def listHasNonStringKey : List Value → Bool
  | [] => false
  | x :: xs => x.hasNonStringKey || listHasNonStringKey xs
end

mutual
/-- Whether every raw map reachable from the value holds each key once, as
every Go map does. -/
def Value.keysDistinct : Value → Bool
  | .rawMap entries => decide (entries.map Prod.fst).Nodup && entriesKeysDistinct entries
  | .list xs => listKeysDistinct xs
  | _ => true
/-- The same, for the values of the entries of a raw map. -/
def entriesKeysDistinct : List (Scalar × Value) → Bool
  | [] => true
  | (_, v) :: rest => v.keysDistinct && entriesKeysDistinct rest
/-- The same, for the elements of a sequence. -/
def listKeysDistinct : List Value → Bool
  | [] => true
  | x :: xs => x.keysDistinct && listKeysDistinct xs
end

mutual
/-- Whether the value is a tree as the YAML layer builds one: scalars,
sequences and raw maps, with no string-keyed map inside. -/
def Value.parsed : Value → Bool
  | .scalar _ => true
  | .list xs => listParsed xs
  | .nilList => true
  | .rawMap entries => entriesParsed entries
  | .strMap _ => false
/-- The same, for the values of the entries of a raw map. -/
def entriesParsed : List (Scalar × Value) → Bool
  | [] => true
  | (_, v) :: rest => v.parsed && entriesParsed rest
/-- The same, for the elements of a sequence. -/
def listParsed : List Value → Bool
  | [] => true
  | x :: xs => x.parsed && listParsed xs
end

mutual
/-- Whether every map of the value, at every nesting level, is a string-keyed
map: no raw map is left anywhere in it. -/
def Value.stringKeyed : Value → Bool
  | .scalar _ => true
  | .list xs => listStringKeyed xs
  | .nilList => true
  | .rawMap _ => false
  | .strMap entries => entriesStringKeyed entries
/-- The same, for the values of the entries of a string-keyed map. -/
def entriesStringKeyed : List (String × Value) → Bool
  | [] => true
  | (_, v) :: rest => v.stringKeyed && entriesStringKeyed rest
/-- The same, for the elements of a sequence. -/
def listStringKeyed : List Value → Bool
  | [] => true
  | x :: xs => x.stringKeyed && listStringKeyed xs
end

/-- A document with nested maps and sequences: the mapping of `a` to the
sequence of 1 and the mapping of `b` to `x`, and of `c` to the empty sequence. -/
def sampleDocument : Value :=
  .rawMap [(.str "a", .list [.scalar (.int 1), .rawMap [(.str "b", .scalar (.str "x"))]]),
    (.str "c", .list [])]

/-- One step of the fold the specification describes: while no load or merge
has failed, load the next path with the same options and merge it into the
settings so far; after a failure nothing more is loaded and the failure stays. -/
def mergeNextFile {σ : Type}
    (loadFile : String → List (Options → Options) → σ → Outcome × σ)
    (merge : Option (List (String × Value)) → Option (List (String × Value)) →
      Option (List (String × Value)) × Option GoError)
    (ops : List (Options → Options)) (acc : Outcome × σ) (path : String) : Outcome × σ :=
  match acc with
  | (.returned m none, world) =>
    match loadFile path ops world with
    | (.returned settings none, world1) =>
      match merge m settings with
      | (merged, none) => (.returned merged none, world1)
      | (_, some err) => (.returned none (some err), world1)
    | (.returned _ (some err), world1) => (.returned none (some err), world1)
    | (.panicked, world1) => (.panicked, world1)
  | failed => failed

/-- The left fold over the paths, in the given order, from the empty settings. -/
def foldFiles {σ : Type}
    (loadFile : String → List (Options → Options) → σ → Outcome × σ)
    (merge : Option (List (String × Value)) → Option (List (String × Value)) →
      Option (List (String × Value)) × Option GoError)
    (paths : List String) (ops : List (Options → Options)) (world : σ) : Outcome × σ :=
  paths.foldl (mergeNextFile loadFile merge ops) (.returned (some []) none, world)

/-- A loader for the examples: it records every path it is asked for, fails on
the path `missing` and otherwise returns the one-entry map from the path to 1. -/
def recordingLoadFile (path : String) (_ : List (Options → Options)) (loaded : List String) :
    Outcome × List String :=
  if path = "missing" then
    (.returned none (some (.external "open missing: no such file or directory")),
      loaded ++ [path])
  else (.returned (some [(path, .scalar (.int 1))]) none, loaded ++ [path])

/-- A merger for the examples: the entries of both maps, with no error. -/
def appendMerge (a b : Option (List (String × Value))) :
    Option (List (String × Value)) × Option GoError :=
  (some (a.getD [] ++ b.getD []), none)


/-- A file system for the examples: every path opens, the file is named by its
path and the descriptor handed out is the number of open ones plus 3. -/
def sampleOpen (path : String) (opened : List Nat) : Except GoError (String × Nat) :=
  .ok (path, opened.length + 3)

/-- A decoder for the examples: the file `broken.yaml` does not parse, the file
`keys.yaml` holds the mapping of 1 to `v`, every other file the mapping of `x`
to 1. -/
def sampleDecode (file : String) : List (Scalar × Value) × Option GoError :=
  if file = "broken.yaml" then
    ([], some (.external "yaml: line 1: did not find expected node content"))
  else if file = "keys.yaml" then ([(.int 1, .scalar (.str "v"))], none)
  else ([(.str "x", .scalar (.int 1))], none)

mutual
/-- The first non-string key met when the tree is traversed depth first, the
entries of a map and the elements of a sequence in order and the value of an
entry before the next entry, with the path of the map that holds the key. -/
def firstInvalidKey : Value → String → Option (String × Scalar)
  | .rawMap entries, keyPrefix => firstInvalidKeyOfEntries entries keyPrefix
  | .list xs, keyPrefix => firstInvalidKeyOfList xs keyPrefix 0
  | _, _ => none
/-- The same, from the entries of a raw map. -/
def firstInvalidKeyOfEntries : List (Scalar × Value) → String → Option (String × Scalar)
  | [], _ => none
  | (key, entry) :: rest, keyPrefix =>
    match key with
    | .str str =>
      match firstInvalidKey entry (if keyPrefix = "" then str else keyPrefix ++ "." ++ str) with
      | some found => some found
      | none => firstInvalidKeyOfEntries rest keyPrefix
    | _ => some (keyPrefix, key)
/-- The same, from the elements of a sequence, the first at position `index`. -/
def firstInvalidKeyOfList : List Value → String → Nat → Option (String × Scalar)
  | [], _, _ => none
  | entry :: rest, keyPrefix, index =>
    match firstInvalidKey entry (keyPrefix ++ "[" ++ toString index ++ "]") with
    | some found => some found
    | none => firstInvalidKeyOfList rest keyPrefix (index + 1)
end


mutual
/-- Two enumerations of one tree: `Reordered a b` holds when `b` is the tree
`a` with the entries of its maps, at every nesting level, visited in another
order. Sequences keep their order. -/
inductive Reordered : Value → Value → Prop
  | scalar (s : Scalar) : Reordered (.scalar s) (.scalar s)
  | nilList : Reordered .nilList .nilList
  | list {xs ys : List Value} : ReorderedList xs ys → Reordered (.list xs) (.list ys)
  | rawMap {es fs gs : List (Scalar × Value)} :
    ReorderedRaw es fs → fs.Perm gs → Reordered (.rawMap es) (.rawMap gs)
  | strMap {es fs gs : List (String × Value)} :
    ReorderedStr es fs → fs.Perm gs → Reordered (.strMap es) (.strMap gs)
/-- Element by element, two enumerations of the elements of a sequence. -/
inductive ReorderedList : List Value → List Value → Prop
  | nil : ReorderedList [] []
  | cons {x y : Value} {xs ys : List Value} :
    Reordered x y → ReorderedList xs ys → ReorderedList (x :: xs) (y :: ys)
/-- Entry by entry, under the same keys, two enumerations of the values of a
raw map. -/
inductive ReorderedRaw : List (Scalar × Value) → List (Scalar × Value) → Prop
  | nil : ReorderedRaw [] []
  | cons {k : Scalar} {v w : Value} {es fs : List (Scalar × Value)} :
    Reordered v w → ReorderedRaw es fs → ReorderedRaw ((k, v) :: es) ((k, w) :: fs)
/-- Entry by entry, under the same keys, two enumerations of the values of a
string-keyed map. -/
inductive ReorderedStr : List (String × Value) → List (String × Value) → Prop
  | nil : ReorderedStr [] []
  | cons {k : String} {v w : Value} {es fs : List (String × Value)} :
    Reordered v w → ReorderedStr es fs → ReorderedStr ((k, v) :: es) ((k, w) :: fs)
end

/-- The string a string key holds; no other key is ever asked for it. -/
def Scalar.text : Scalar → String
  | .str s => s
  | _ => ""

mutual
/-- The tree with every raw map turned into a string-keyed map, entry by entry
in the same order, and the empty sequence into the nil one. -/
def Value.retyped : Value → Value
  | .rawMap entries => .strMap (retypedEntries entries)
  | .list [] => .nilList
  | .list (x :: xs) => .list (x.retyped :: retypedList xs)
  | .nilList => .nilList
  | .scalar s => .scalar s
  | .strMap entries => .strMap entries
/-- The entries of a raw map, retyped. -/
def retypedEntries : List (Scalar × Value) → List (String × Value)
  | [] => []
  | (k, v) :: rest => (k.text, v.retyped) :: retypedEntries rest
/-- The elements of a sequence, retyped. -/
def retypedList : List Value → List Value
  | [] => []
  | x :: xs => x.retyped :: retypedList xs
end


/-- The map loop of the normaliser when a call of the normaliser may fail to
return (`none`): `call` is the recursive call. -/
def mapLoopWith (call : Value → String → Option (Value × Option GoError)) :
    List (Scalar × Value) → String → List (String × Value) → Option (Value × Option GoError)
  | [], _, dict => some (.strMap dict, none)
  | (key, entry) :: rest, keyPrefix, dict =>
    match key with
    | .str str =>
      let newKeyPrefix := if keyPrefix = "" then str else keyPrefix ++ "." ++ str
      match call entry newKeyPrefix with
      | none => none
      | some (_, some err) => some (Value.nil, some err)
      | some (convertedEntry, none) =>
        mapLoopWith call rest keyPrefix (mapSet dict str convertedEntry)
    | _ => some (Value.nil, some (formatInvalidKeyError keyPrefix key))

/-- The list loop of the normaliser when a call of the normaliser may fail to
return: `call` is the recursive call. -/
def listLoopWith (call : Value → String → Option (Value × Option GoError)) :
    List Value → String → Nat → Option (List Value) → Option (Value × Option GoError)
  | [], _, _, convertedList => some (Value.ofSlice convertedList, none)
  | entry :: rest, keyPrefix, index, convertedList =>
    let newKeyPrefix := keyPrefix ++ "[" ++ toString index ++ "]"
    match call entry newKeyPrefix with
    | none => none
    | some (_, some err) => some (Value.nil, some err)
    | some (convertedEntry, none) =>
      listLoopWith call rest keyPrefix (index + 1) (goAppend convertedList convertedEntry)

/-- The normaliser run with a bound on the depth of its calls: every call
spends one unit of `fuel`, and a call with none left does not return. -/
def convertWithFuel : Nat → Value → String → Option (Value × Option GoError)
  | 0, _, _ => none
  | fuel + 1, .rawMap mapping, keyPrefix =>
    mapLoopWith (convertWithFuel fuel) mapping keyPrefix []
  | fuel + 1, .list xs, keyPrefix => listLoopWith (convertWithFuel fuel) xs keyPrefix 0 none
  | _ + 1, .nilList, _ => some (Value.ofSlice none, none)
  | _ + 1, .scalar s, _ => some (.scalar s, none)
  | _ + 1, .strMap entries, _ => some (.strMap entries, none)

mutual
/-- The depth of the calls the normaliser makes on a tree: one for the tree,
and the deepest of the values of its raw map or of the elements of its
sequence. -/
def Value.depth : Value → Nat
  | .rawMap entries => entriesDepth entries + 1
  | .list xs => listDepth xs + 1
  | _ => 1
/-- The deepest of the values of the entries. -/
def entriesDepth : List (Scalar × Value) → Nat
  | [] => 0
  | (_, v) :: rest => max v.depth (entriesDepth rest)
/-- The deepest of the elements. -/
def listDepth : List Value → Nat
  | [] => 0
  | x :: xs => max x.depth (listDepth xs)
end

mutual
/-- The number of nodes of a tree as the normaliser walks it. -/
def Value.nodes : Value → Nat
  | .rawMap entries => entriesNodes entries + 1
  | .list xs => listNodes xs + 1
  | _ => 1
/-- The number of nodes of the values of the entries. -/
def entriesNodes : List (Scalar × Value) → Nat
  | [] => 0
  | (_, v) :: rest => v.nodes + entriesNodes rest
/-- The number of nodes of the elements. -/
def listNodes : List Value → Nat
  | [] => 0
  | x :: xs => x.nodes + listNodes xs
end

/-- The arguments of the recursive calls the normaliser makes on a value: the
values of the entries of a raw map, the elements of a sequence. -/
def Value.children : Value → List Value
  | .rawMap entries => entries.map Prod.snd
  | .list xs => xs
  | _ => []


/-! ## Lemmas on the vocabulary -/

theorem shapeList_eq_map (xs : List Value) : shapeList xs = xs.map Value.shape := by
  induction xs with
  | nil => simp [shapeList]
  | cons x xs ih => simp [shapeList, ih]

theorem shapeStr_append (a b : List (String × Value)) :
    shapeStr (a ++ b) = shapeStr a ++ shapeStr b := by
  induction a with
  | nil => simp [shapeStr]
  | cons e a ih => obtain ⟨k, v⟩ := e; simp [shapeStr, ih]

theorem shapeList_append (a b : List Value) :
    shapeList (a ++ b) = shapeList a ++ shapeList b := by
  simp [shapeList_eq_map]

theorem mapSet_of_not_mem (dict : List (String × Value)) (k : String) (v : Value)
    (h : k ∉ dict.map Prod.fst) : mapSet dict k v = dict ++ [(k, v)] := by
  induction dict with
  | nil => simp [mapSet]
  | cons e dict ih =>
    obtain ⟨k0, v0⟩ := e
    simp only [List.map_cons, List.mem_cons, not_or] at h
    have hne : ¬ k0 = k := fun hk => h.1 hk.symm
    simp [mapSet, hne, ih h.2]

/-! ## Normalising a string-keyed tree -/

mutual
theorem convert_shape_aux : ∀ (v : Value) (keyPrefix : String),
    v.hasNonStringKey = false → v.keysDistinct = true →
    (convertToStringKeysRecursive v keyPrefix).2 = none ∧
      (convertToStringKeysRecursive v keyPrefix).1.shape = v.shape
  | .scalar s, keyPrefix, _, _ => by simp [convertToStringKeysRecursive]
  | .strMap entries, keyPrefix, _, _ => by simp [convertToStringKeysRecursive]
  | .nilList, keyPrefix, _, _ => by
    simp [convertToStringKeysRecursive, convertListLoop, Value.ofSlice, Value.shape]
  | .list xs, keyPrefix, hk, hd => by
    simp only [Value.hasNonStringKey] at hk
    simp only [Value.keysDistinct] at hd
    obtain ⟨out, hout, hshape⟩ := convertListLoop_shape_aux xs keyPrefix 0 none hk hd
    simp only [convertToStringKeysRecursive, hout, true_and]
    cases out with
    | none => simpa [Value.ofSlice, Value.shape, shapeList] using hshape
    | some ys => simpa [Value.ofSlice, Value.shape, shapeList] using hshape
  | .rawMap entries, keyPrefix, hk, hd => by
    simp only [Value.hasNonStringKey] at hk
    simp only [Value.keysDistinct, Bool.and_eq_true, decide_eq_true_eq] at hd
    obtain ⟨out, hout, hshape⟩ :=
      convertMapLoop_shape_aux entries keyPrefix [] hk hd.2 hd.1 (by simp)
    simp only [convertToStringKeysRecursive, hout, true_and]
    simpa [Value.shape, shapeStr] using hshape
theorem convertMapLoop_shape_aux : ∀ (entries : List (Scalar × Value)) (keyPrefix : String)
    (dict : List (String × Value)),
    entriesHaveNonStringKey entries = false → entriesKeysDistinct entries = true →
    (entries.map Prod.fst).Nodup →
    (∀ s, Scalar.str s ∈ entries.map Prod.fst → s ∉ dict.map Prod.fst) →
    ∃ out, convertMapLoop entries keyPrefix dict = (.strMap out, none) ∧
      shapeStr out = shapeStr dict ++ shapeRaw entries
  | [], keyPrefix, dict, _, _, _, _ => ⟨dict, by simp [convertMapLoop, shapeRaw]⟩
  | (key, entry) :: rest, keyPrefix, dict, hk, hd, hnd, hfresh => by
    simp only [entriesHaveNonStringKey, Bool.or_eq_false_iff, Bool.not_eq_false'] at hk
    simp only [entriesKeysDistinct, Bool.and_eq_true] at hd
    simp only [List.map_cons, List.nodup_cons] at hnd
    obtain ⟨⟨hstr, hentry⟩, hrest⟩ := hk
    cases key with
    | str str =>
      have hv := convert_shape_aux entry (if keyPrefix = "" then str else keyPrefix ++ "." ++ str)
        hentry hd.1
      have hnew : str ∉ dict.map Prod.fst := hfresh str (by simp)
      obtain ⟨out, hout, hshape⟩ := convertMapLoop_shape_aux rest keyPrefix
        (mapSet dict str (convertToStringKeysRecursive entry
          (if keyPrefix = "" then str else keyPrefix ++ "." ++ str)).1) hrest hd.2 hnd.2
        (by
          intro s hs
          rw [mapSet_of_not_mem dict str _ hnew]
          simp only [List.map_append, List.map_cons, List.map_nil, List.mem_append,
            List.mem_singleton, not_or]
          refine ⟨hfresh s (by simp [hs]), ?_⟩
          intro h
          subst h
          exact hnd.1 hs)
      refine ⟨out, ?_, ?_⟩
      · simp only [convertMapLoop]
        generalize hc : convertToStringKeysRecursive entry
          (if keyPrefix = "" then str else keyPrefix ++ "." ++ str) = c at hv hout
        obtain ⟨cv, ce⟩ := c
        simp only at hv
        obtain ⟨he, -⟩ := hv
        subst he
        simpa using hout
      · rw [hshape, mapSet_of_not_mem dict str _ hnew, shapeStr_append]
        simp [shapeStr, shapeRaw, hv.2]
    | int i => simp [Scalar.isStr] at hstr
    | bool b => simp [Scalar.isStr] at hstr
    | float t => simp [Scalar.isStr] at hstr
    | null => simp [Scalar.isStr] at hstr
theorem convertListLoop_shape_aux : ∀ (xs : List Value) (keyPrefix : String) (index : Nat)
    (convertedList : Option (List Value)),
    listHasNonStringKey xs = false → listKeysDistinct xs = true →
    ∃ out, convertListLoop xs keyPrefix index convertedList = (Value.ofSlice out, none) ∧
      shapeList (out.getD []) = shapeList (convertedList.getD []) ++ shapeList xs
  | [], keyPrefix, index, convertedList, _, _ => ⟨convertedList, by simp [convertListLoop, shapeList]⟩
  | entry :: rest, keyPrefix, index, convertedList, hk, hd => by
    simp only [listHasNonStringKey, Bool.or_eq_false_iff] at hk
    simp only [listKeysDistinct, Bool.and_eq_true] at hd
    have hv := convert_shape_aux entry (keyPrefix ++ "[" ++ toString index ++ "]") hk.1 hd.1
    obtain ⟨out, hout, hshape⟩ := convertListLoop_shape_aux rest keyPrefix (index + 1)
      (goAppend convertedList (convertToStringKeysRecursive entry
        (keyPrefix ++ "[" ++ toString index ++ "]")).1) hk.2 hd.2
    refine ⟨out, ?_, ?_⟩
    · simp only [convertListLoop]
      generalize hc : convertToStringKeysRecursive entry
        (keyPrefix ++ "[" ++ toString index ++ "]") = c at hv hout
      obtain ⟨cv, ce⟩ := c
      simp only at hv
      obtain ⟨he, -⟩ := hv
      subst he
      simpa using hout
    · rw [hshape]
      cases convertedList with
      | none => simp [goAppend, shapeList, hv.2]
      | some ys => simp [goAppend, shapeList, shapeList_append, hv.2]
end

/-! ## Failure exactly on a non-string key -/

theorem entriesStringKeyed_mapSet (dict : List (String × Value)) (k : String) (v : Value)
    (hd : entriesStringKeyed dict = true) (hv : v.stringKeyed = true) :
    entriesStringKeyed (mapSet dict k v) = true := by
  induction dict with
  | nil => simp [mapSet, entriesStringKeyed, hv]
  | cons e dict ih =>
    obtain ⟨k0, v0⟩ := e
    simp only [entriesStringKeyed, Bool.and_eq_true] at hd
    by_cases hk : k0 = k
    · simp [mapSet, hk, entriesStringKeyed, hv, hd.2]
    · simp [mapSet, hk, entriesStringKeyed, hd.1, ih hd.2]

theorem listStringKeyed_append (a b : List Value) :
    listStringKeyed (a ++ b) = (listStringKeyed a && listStringKeyed b) := by
  induction a with
  | nil => simp [listStringKeyed]
  | cons x a ih => simp [listStringKeyed, ih, Bool.and_assoc]

theorem stringKeyed_goAppend (acc : Option (List Value)) (v : Value)
    (ha : (Value.ofSlice acc).stringKeyed = true) (hv : v.stringKeyed = true) :
    (Value.ofSlice (goAppend acc v)).stringKeyed = true := by
  cases acc with
  | none => simp [goAppend, Value.ofSlice, Value.stringKeyed, listStringKeyed, hv]
  | some ys =>
    simp only [Value.ofSlice, Value.stringKeyed] at ha
    simp [goAppend, Value.ofSlice, Value.stringKeyed, listStringKeyed_append, listStringKeyed,
      ha, hv]

mutual
theorem convert_ok_iff_aux : ∀ (v : Value) (keyPrefix : String),
    (convertToStringKeysRecursive v keyPrefix).2 = none ↔ v.hasNonStringKey = false
  | .scalar s, keyPrefix => by simp [convertToStringKeysRecursive, Value.hasNonStringKey]
  | .strMap entries, keyPrefix => by simp [convertToStringKeysRecursive, Value.hasNonStringKey]
  | .nilList, keyPrefix => by
    simp [convertToStringKeysRecursive, convertListLoop, Value.hasNonStringKey]
  | .list xs, keyPrefix => by
    simp only [convertToStringKeysRecursive, Value.hasNonStringKey]
    exact convertListLoop_ok_iff_aux xs keyPrefix 0 none
  | .rawMap entries, keyPrefix => by
    simp only [convertToStringKeysRecursive, Value.hasNonStringKey]
    exact convertMapLoop_ok_iff_aux entries keyPrefix []
theorem convertMapLoop_ok_iff_aux : ∀ (entries : List (Scalar × Value)) (keyPrefix : String)
    (dict : List (String × Value)),
    (convertMapLoop entries keyPrefix dict).2 = none ↔ entriesHaveNonStringKey entries = false
  | [], keyPrefix, dict => by simp [convertMapLoop, entriesHaveNonStringKey]
  | (key, entry) :: rest, keyPrefix, dict => by
    cases key with
    | str str =>
      have hv := convert_ok_iff_aux entry (if keyPrefix = "" then str else keyPrefix ++ "." ++ str)
      simp only [convertMapLoop, entriesHaveNonStringKey, Scalar.isStr, Bool.not_true,
        Bool.false_or, Bool.or_eq_false_iff]
      generalize hc : convertToStringKeysRecursive entry
        (if keyPrefix = "" then str else keyPrefix ++ "." ++ str) = c at hv
      obtain ⟨cv, ce⟩ := c
      cases ce with
      | none =>
        have hrest := convertMapLoop_ok_iff_aux rest keyPrefix (mapSet dict str cv)
        simp only [true_iff] at hv
        simp [hv, hrest]
      | some err =>
        have hne : ¬ entry.hasNonStringKey = false := fun h => by simpa using hv.mpr h
        simp [hne]
    | int i => simp [convertMapLoop, entriesHaveNonStringKey, Scalar.isStr]
    | bool b => simp [convertMapLoop, entriesHaveNonStringKey, Scalar.isStr]
    | float t => simp [convertMapLoop, entriesHaveNonStringKey, Scalar.isStr]
    | null => simp [convertMapLoop, entriesHaveNonStringKey, Scalar.isStr]
theorem convertListLoop_ok_iff_aux : ∀ (xs : List Value) (keyPrefix : String) (index : Nat)
    (convertedList : Option (List Value)),
    (convertListLoop xs keyPrefix index convertedList).2 = none ↔ listHasNonStringKey xs = false
  | [], keyPrefix, index, convertedList => by simp [convertListLoop, listHasNonStringKey]
  | entry :: rest, keyPrefix, index, convertedList => by
    have hv := convert_ok_iff_aux entry (keyPrefix ++ "[" ++ toString index ++ "]")
    simp only [convertListLoop, listHasNonStringKey, Bool.or_eq_false_iff]
    generalize hc : convertToStringKeysRecursive entry
      (keyPrefix ++ "[" ++ toString index ++ "]") = c at hv
    obtain ⟨cv, ce⟩ := c
    cases ce with
    | none =>
      have hrest := convertListLoop_ok_iff_aux rest keyPrefix (index + 1) (goAppend convertedList cv)
      simp only [true_iff] at hv
      simp [hv, hrest]
    | some err =>
      have hne : ¬ entry.hasNonStringKey = false := fun h => by simpa using hv.mpr h
      simp [hne]
end

mutual
theorem convert_stringKeyed_aux : ∀ (v : Value) (keyPrefix : String),
    v.parsed = true → (convertToStringKeysRecursive v keyPrefix).2 = none →
    (convertToStringKeysRecursive v keyPrefix).1.stringKeyed = true
  | .scalar s, keyPrefix, _, _ => by simp [convertToStringKeysRecursive, Value.stringKeyed]
  | .strMap entries, keyPrefix, hp, _ => by simp [Value.parsed] at hp
  | .nilList, keyPrefix, _, _ => by
    simp [convertToStringKeysRecursive, convertListLoop, Value.ofSlice, Value.stringKeyed]
  | .list xs, keyPrefix, hp, hok => by
    simp only [Value.parsed] at hp
    simp only [convertToStringKeysRecursive] at hok ⊢
    exact convertListLoop_stringKeyed_aux xs keyPrefix 0 none hp
      (by simp [Value.ofSlice, Value.stringKeyed]) hok
  | .rawMap entries, keyPrefix, hp, hok => by
    simp only [Value.parsed] at hp
    simp only [convertToStringKeysRecursive] at hok ⊢
    exact convertMapLoop_stringKeyed_aux entries keyPrefix [] hp
      (by simp [entriesStringKeyed]) hok
theorem convertMapLoop_stringKeyed_aux : ∀ (entries : List (Scalar × Value))
    (keyPrefix : String) (dict : List (String × Value)),
    entriesParsed entries = true → entriesStringKeyed dict = true →
    (convertMapLoop entries keyPrefix dict).2 = none →
    (convertMapLoop entries keyPrefix dict).1.stringKeyed = true
  | [], keyPrefix, dict, _, hd, _ => by simpa [convertMapLoop, Value.stringKeyed] using hd
  | (key, entry) :: rest, keyPrefix, dict, hp, hd, hok => by
    simp only [entriesParsed, Bool.and_eq_true] at hp
    cases key with
    | str str =>
      have hv := convert_stringKeyed_aux entry
        (if keyPrefix = "" then str else keyPrefix ++ "." ++ str) hp.1
      simp only [convertMapLoop] at hok ⊢
      generalize hc : convertToStringKeysRecursive entry
        (if keyPrefix = "" then str else keyPrefix ++ "." ++ str) = c at hv hok
      obtain ⟨cv, ce⟩ := c
      cases ce with
      | none =>
        simp only at hok ⊢
        exact convertMapLoop_stringKeyed_aux rest keyPrefix (mapSet dict str cv) hp.2
          (entriesStringKeyed_mapSet dict str cv hd (hv rfl)) hok
      | some err => simp at hok
    | int i => simp [convertMapLoop] at hok
    | bool b => simp [convertMapLoop] at hok
    | float t => simp [convertMapLoop] at hok
    | null => simp [convertMapLoop] at hok
theorem convertListLoop_stringKeyed_aux : ∀ (xs : List Value) (keyPrefix : String) (index : Nat)
    (convertedList : Option (List Value)),
    listParsed xs = true → (Value.ofSlice convertedList).stringKeyed = true →
    (convertListLoop xs keyPrefix index convertedList).2 = none →
    (convertListLoop xs keyPrefix index convertedList).1.stringKeyed = true
  | [], keyPrefix, index, convertedList, _, ha, _ => by simpa [convertListLoop] using ha
  | entry :: rest, keyPrefix, index, convertedList, hp, ha, hok => by
    simp only [listParsed, Bool.and_eq_true] at hp
    have hv := convert_stringKeyed_aux entry (keyPrefix ++ "[" ++ toString index ++ "]") hp.1
    simp only [convertListLoop] at hok ⊢
    generalize hc : convertToStringKeysRecursive entry
      (keyPrefix ++ "[" ++ toString index ++ "]") = c at hv hok
    obtain ⟨cv, ce⟩ := c
    cases ce with
    | none =>
      simp only at hok ⊢
      exact convertListLoop_stringKeyed_aux rest keyPrefix (index + 1) (goAppend convertedList cv)
        hp.2 (stringKeyed_goAppend convertedList cv ha (hv rfl)) hok
    | some err => simp at hok
end

/-! ## Where a failure is reported -/

theorem index_path_ne_empty (keyPrefix : String) (index : Nat) :
    keyPrefix ++ "[" ++ toString index ++ "]" ≠ "" := by
  intro h
  have hlen := congrArg String.length h
  simp only [String.length_append] at hlen
  have h1 : "]".length = 1 := by decide
  have h0 : "".length = 0 := by decide
  omega

theorem formatInvalidKeyError_top (key : Scalar) :
    formatInvalidKeyError "" key =
      .errorf ("Non-string key at top level: " ++ goSyntax key) := by
  have h : "Non-string key " ++ "at top level" ++ ": " = "Non-string key at top level: " := by
    decide
  simp only [formatInvalidKeyError, if_true, h]

theorem formatInvalidKeyError_in (keyPrefix : String) (key : Scalar) (hne : keyPrefix ≠ "") :
    formatInvalidKeyError keyPrefix key =
      .errorf ("Non-string key in " ++ keyPrefix ++ ": " ++ goSyntax key) := by
  have h : "Non-string key " ++ "in " = "Non-string key in " := by decide
  simp only [formatInvalidKeyError, if_neg hne, ← h, String.append_assoc]

/-- The map loop stops at a non-string key that follows entries it accepts. -/
theorem convertMapLoop_bad_key (before after : List (Scalar × Value)) (key : Scalar)
    (entry : Value) (keyPrefix : String) (dict : List (String × Value))
    (hbefore : entriesHaveNonStringKey before = false) (hkey : key.isStr = false) :
    convertMapLoop (before ++ (key, entry) :: after) keyPrefix dict =
      (Value.nil, some (formatInvalidKeyError keyPrefix key)) := by
  induction before generalizing dict with
  | nil =>
    cases key with
    | str s => simp [Scalar.isStr] at hkey
    | int i => simp [convertMapLoop]
    | bool b => simp [convertMapLoop]
    | float t => simp [convertMapLoop]
    | null => simp [convertMapLoop]
  | cons e before ih =>
    obtain ⟨k0, v0⟩ := e
    simp only [entriesHaveNonStringKey, Bool.or_eq_false_iff, Bool.not_eq_false'] at hbefore
    obtain ⟨⟨hstr, hentry⟩, hrest⟩ := hbefore
    cases k0 with
    | str str =>
      have hv := (convert_ok_iff_aux v0
        (if keyPrefix = "" then str else keyPrefix ++ "." ++ str)).mpr hentry
      simp only [List.cons_append, convertMapLoop]
      generalize hc : convertToStringKeysRecursive v0
        (if keyPrefix = "" then str else keyPrefix ++ "." ++ str) = c at hv
      obtain ⟨cv, ce⟩ := c
      simp only at hv
      subst hv
      exact ih _ hrest
    | int i => simp [Scalar.isStr] at hstr
    | bool b => simp [Scalar.isStr] at hstr
    | float t => simp [Scalar.isStr] at hstr
    | null => simp [Scalar.isStr] at hstr

/-- The map loop returns the error of the first value that fails, met after
entries it accepts; the value is normalised under the path extended by its key. -/
theorem convertMapLoop_bad_value (before after : List (Scalar × Value)) (str : String)
    (entry : Value) (keyPrefix : String) (dict : List (String × Value)) (out : Value)
    (err : GoError) (hbefore : entriesHaveNonStringKey before = false)
    (hentry : convertToStringKeysRecursive entry
      (if keyPrefix = "" then str else keyPrefix ++ "." ++ str) = (out, some err)) :
    convertMapLoop (before ++ (.str str, entry) :: after) keyPrefix dict =
      (Value.nil, some err) := by
  induction before generalizing dict with
  | nil => simp [convertMapLoop, hentry]
  | cons e before ih =>
    obtain ⟨k0, v0⟩ := e
    simp only [entriesHaveNonStringKey, Bool.or_eq_false_iff, Bool.not_eq_false'] at hbefore
    obtain ⟨⟨hstr, hv0⟩, hrest⟩ := hbefore
    cases k0 with
    | str s0 =>
      have hv := (convert_ok_iff_aux v0
        (if keyPrefix = "" then s0 else keyPrefix ++ "." ++ s0)).mpr hv0
      simp only [List.cons_append, convertMapLoop]
      generalize hc : convertToStringKeysRecursive v0
        (if keyPrefix = "" then s0 else keyPrefix ++ "." ++ s0) = c at hv
      obtain ⟨cv, ce⟩ := c
      simp only at hv
      subst hv
      exact ih _ hrest
    | int i => simp [Scalar.isStr] at hstr
    | bool b => simp [Scalar.isStr] at hstr
    | float t => simp [Scalar.isStr] at hstr
    | null => simp [Scalar.isStr] at hstr

/-- The list loop returns the error of the first element that fails; the
element at position `index + before.length` is normalised under the path
`keyPrefix[index + before.length]`. -/
theorem convertListLoop_bad_element (before after : List Value) (entry : Value)
    (keyPrefix : String) (index : Nat) (convertedList : Option (List Value)) (out : Value)
    (err : GoError) (hbefore : listHasNonStringKey before = false)
    (hentry : convertToStringKeysRecursive entry
      (keyPrefix ++ "[" ++ toString (index + before.length) ++ "]") = (out, some err)) :
    convertListLoop (before ++ entry :: after) keyPrefix index convertedList =
      (Value.nil, some err) := by
  induction before generalizing index convertedList with
  | nil =>
    simp only [List.length_nil, Nat.add_zero] at hentry
    simp [convertListLoop, hentry]
  | cons x before ih =>
    simp only [listHasNonStringKey, Bool.or_eq_false_iff] at hbefore
    have hv := (convert_ok_iff_aux x (keyPrefix ++ "[" ++ toString index ++ "]")).mpr hbefore.1
    simp only [List.cons_append, convertListLoop]
    generalize hc : convertToStringKeysRecursive x
      (keyPrefix ++ "[" ++ toString index ++ "]") = c at hv
    obtain ⟨cv, ce⟩ := c
    simp only at hv
    subst hv
    refine ih (index + 1) _ hbefore.2 ?_
    have hidx : index + 1 + before.length = index + (x :: before).length := by
      simp only [List.length_cons]; omega
    rw [hidx]
    exact hentry

theorem entriesHaveNonStringKey_eq_false_iff (entries : List (Scalar × Value)) :
    entriesHaveNonStringKey entries = false ↔
      ∀ e ∈ entries, e.1.isStr = true ∧ e.2.hasNonStringKey = false := by
  induction entries with
  | nil => simp [entriesHaveNonStringKey]
  | cons e entries ih =>
    obtain ⟨k, v⟩ := e
    simp [entriesHaveNonStringKey, ih, and_assoc]

theorem exists_first_non_string_key (entries : List (Scalar × Value))
    (h : ∃ e ∈ entries, e.1.isStr = false) :
    ∃ before key entry after, entries = before ++ (key, entry) :: after ∧
      key.isStr = false ∧ ∀ e ∈ before, e.1.isStr = true := by
  induction entries with
  | nil => simp at h
  | cons e entries ih =>
    obtain ⟨k, v⟩ := e
    by_cases hk : k.isStr = true
    · obtain ⟨e0, he0, hbad⟩ := h
      have hin : e0 ∈ entries := by
        rcases List.mem_cons.mp he0 with rfl | hin
        · simp [hk] at hbad
        · exact hin
      obtain ⟨before, key, entry, after, heq, hkey, hall⟩ := ih ⟨e0, hin, hbad⟩
      refine ⟨(k, v) :: before, key, entry, after, by simp [heq], hkey, ?_⟩
      intro e he
      rcases List.mem_cons.mp he with rfl | he
      · exact hk
      · exact hall e he
    · exact ⟨[], k, v, entries, rfl, by simpa using hk, by simp⟩

/-- The root loop of a document whose only non-string keys are in the root map
reports one of them at top level. -/
theorem convert_root_non_string_key (s : List (Scalar × Value))
    (hroot : ∃ e ∈ s, e.1.isStr = false) (hrest : ∀ e ∈ s, e.2.hasNonStringKey = false) :
    ∃ key ∈ s.map Prod.fst, key.isStr = false ∧
      convertToStringKeysRecursive (.rawMap s) "" =
        (Value.nil, some (.errorf ("Non-string key at top level: " ++ goSyntax key))) := by
  obtain ⟨before, key, entry, after, heq, hkey, hall⟩ := exists_first_non_string_key s hroot
  refine ⟨key, by simp [heq], hkey, ?_⟩
  have hbefore : entriesHaveNonStringKey before = false := by
    rw [entriesHaveNonStringKey_eq_false_iff]
    intro e he
    exact ⟨hall e he, hrest e (by simp [heq, he])⟩
  rw [← formatInvalidKeyError_top, heq]
  simp only [convertToStringKeysRecursive]
  exact convertMapLoop_bad_key before after key entry "" [] hbefore hkey

/-! ## The properties of the specification -/

/-- C1: on a tree in which every key of every raw map is a string (each map
holding a key once, as a Go map does), the normaliser called with the empty
path succeeds and its result has the structure of the input: the same keys
mapped to the normalised values, the same elements in the same order and number
in every sequence, every scalar unchanged. -/
theorem convert_string_keyed_identity (tree : Value)
    (hkeys : tree.hasNonStringKey = false) (hmaps : tree.keysDistinct = true) :
    (convertToStringKeysRecursive tree "").2 = none ∧
      (convertToStringKeysRecursive tree "").1.shape = tree.shape ∧
      ∀ s, tree = .scalar s → convertToStringKeysRecursive tree "" = (.scalar s, none) := by
  refine ⟨(convert_shape_aux tree "" hkeys hmaps).1, (convert_shape_aux tree "" hkeys hmaps).2, ?_⟩
  intro s hs
  subst hs
  simp [convertToStringKeysRecursive]

theorem convert_string_keyed_identity_witness :
    sampleDocument.hasNonStringKey = false ∧ sampleDocument.keysDistinct = true ∧
      (convertToStringKeysRecursive sampleDocument "").2 = none ∧
      (convertToStringKeysRecursive sampleDocument "").1.shape = sampleDocument.shape :=
  ⟨by decide, by decide,
    (convert_string_keyed_identity sampleDocument (by decide) (by decide)).1,
    (convert_string_keyed_identity sampleDocument (by decide) (by decide)).2.1⟩

/-- C2: on a parsed tree and any path, the normaliser returns an error exactly
when a raw map reachable from the root through map values and sequence elements
has a non-string key; when it succeeds, every map of the result is a
string-keyed map. -/
theorem convert_fails_iff_non_string_key (tree : Value) (keyPrefix : String)
    (hparsed : tree.parsed = true) :
    ((convertToStringKeysRecursive tree keyPrefix).2 ≠ none ↔ tree.hasNonStringKey = true) ∧
      ((convertToStringKeysRecursive tree keyPrefix).2 = none →
        (convertToStringKeysRecursive tree keyPrefix).1.stringKeyed = true) := by
  refine ⟨?_, convert_stringKeyed_aux tree keyPrefix hparsed⟩
  rw [Ne, convert_ok_iff_aux tree keyPrefix]
  simp

theorem convert_fails_iff_non_string_key_witness :
    sampleDocument.parsed = true ∧
      (convertToStringKeysRecursive sampleDocument "p").2 = none ∧
      (convertToStringKeysRecursive sampleDocument "p").1.stringKeyed = true :=
  have h := convert_fails_iff_non_string_key sampleDocument "p" (by decide)
  have hok : (convertToStringKeysRecursive sampleDocument "p").2 = none := by rfl
  ⟨by decide, hok, h.2 hok⟩

/-- C3: the document mapping the empty string to the mapping of 1 to `v` holds
its non-string key at depth 1, one key step below the root, yet the error
locates it at top level, with no path segment. -/
theorem empty_key_step_reported_at_top_level :
    convertToStringKeysRecursive
        (.rawMap [(.str "", .rawMap [(.int 1, .scalar (.str "v"))])]) "" =
      (Value.nil, some (.errorf "Non-string key at top level: 1")) := by
  rfl

/-- C4: when the root map of the decoded document has a non-string key and no
other map has one, `Load` and `LoadData` return nil settings and the error
`Non-string key at top level: <key>` for a non-string key of the root map. -/
theorem load_root_non_string_key {ρ : Type}
    (decode : ρ → List (Scalar × Value) × Option GoError) (r : ρ)
    (unmarshal : List Nat → List (Scalar × Value) × Option GoError) (data : List Nat)
    (ops : List (Options → Options)) (s : List (Scalar × Value))
    (hdecode : decode r = (s, none)) (hunmarshal : unmarshal data = (s, none))
    (hroot : ∃ e ∈ s, e.1.isStr = false) (hrest : ∀ e ∈ s, e.2.hasNonStringKey = false) :
    ∃ key ∈ s.map Prod.fst, key.isStr = false ∧
      Load decode r ops = .returned none
        (some (.errorf ("Non-string key at top level: " ++ goSyntax key))) ∧
      LoadData unmarshal data ops = .returned none
        (some (.errorf ("Non-string key at top level: " ++ goSyntax key))) := by
  obtain ⟨key, hmem, hkey, hconv⟩ := convert_root_non_string_key s hroot hrest
  exact ⟨key, hmem, hkey, by simp [Load, hdecode, hconv], by simp [LoadData, hunmarshal, hconv]⟩

theorem load_root_non_string_key_witness :
    ∃ key ∈ [(Scalar.int 1, Value.scalar (.str "v"))].map Prod.fst, key.isStr = false ∧
      Load (fun _ : Unit => ([(Scalar.int 1, Value.scalar (.str "v"))], none)) () [] =
        .returned none (some (.errorf ("Non-string key at top level: " ++ goSyntax key))) ∧
      LoadData (fun _ => ([(Scalar.int 1, Value.scalar (.str "v"))], none)) [] [] =
        .returned none (some (.errorf ("Non-string key at top level: " ++ goSyntax key))) :=
  load_root_non_string_key (fun _ : Unit => ([(Scalar.int 1, Value.scalar (.str "v"))], none)) ()
    (fun _ => ([(Scalar.int 1, Value.scalar (.str "v"))], none)) [] []
    [(Scalar.int 1, Value.scalar (.str "v"))] rfl rfl
    ⟨(Scalar.int 1, Value.scalar (.str "v")), by simp, rfl⟩
    (by intro e he; simp only [List.mem_singleton] at he; subst he; rfl)

/-- C5: when the only non-string key the traversal meets lies in a raw map that
is element `i` of the sequence stored under the top-level key `k` (non-empty or
not), normalisation fails with location `in k[i]`; in general element `i` of a
sequence is normalised under the path `keyPrefix[i]`, whose error the sequence
returns. -/
theorem sequence_element_location (k : String)
    (before after inner innerAfter : List (Scalar × Value)) (xs xsAfter : List Value)
    (key : Scalar) (entry : Value)
    (hbefore : entriesHaveNonStringKey before = false)
    (hxs : listHasNonStringKey xs = false)
    (hinner : entriesHaveNonStringKey inner = false) (hkey : key.isStr = false) :
    convertToStringKeysRecursive
        (.rawMap (before ++
          (.str k, .list (xs ++ .rawMap (inner ++ (key, entry) :: innerAfter) :: xsAfter))
            :: after)) "" =
      (Value.nil, some (.errorf
        ("Non-string key in " ++ (k ++ "[" ++ toString xs.length ++ "]") ++ ": " ++
          goSyntax key))) ∧
    ∀ (keyPrefix : String) (ys ysAfter : List Value) (y out : Value) (err : GoError),
      listHasNonStringKey ys = false →
      convertToStringKeysRecursive y (keyPrefix ++ "[" ++ toString ys.length ++ "]") =
        (out, some err) →
      convertToStringKeysRecursive (.list (ys ++ y :: ysAfter)) keyPrefix =
        (Value.nil, some err) := by
  have hgeneral : ∀ (keyPrefix : String) (ys ysAfter : List Value) (y out : Value)
      (err : GoError), listHasNonStringKey ys = false →
      convertToStringKeysRecursive y (keyPrefix ++ "[" ++ toString ys.length ++ "]") =
        (out, some err) →
      convertToStringKeysRecursive (.list (ys ++ y :: ysAfter)) keyPrefix =
        (Value.nil, some err) := by
    intro keyPrefix ys ysAfter y out err hys hy
    simp only [convertToStringKeysRecursive]
    exact convertListLoop_bad_element ys ysAfter y keyPrefix 0 none out err hys
      (by simpa using hy)
  refine ⟨?_, hgeneral⟩
  have hmap : convertToStringKeysRecursive (.rawMap (inner ++ (key, entry) :: innerAfter))
      (k ++ "[" ++ toString xs.length ++ "]") =
      (Value.nil, some (formatInvalidKeyError (k ++ "[" ++ toString xs.length ++ "]") key)) := by
    simp only [convertToStringKeysRecursive]
    exact convertMapLoop_bad_key inner innerAfter key entry _ [] hinner hkey
  have hlist := hgeneral k xs xsAfter _ _ _ hxs hmap
  rw [formatInvalidKeyError_in _ key (index_path_ne_empty k xs.length)] at hlist
  simp only [convertToStringKeysRecursive]
  exact convertMapLoop_bad_value before after k _ "" [] Value.nil _ hbefore
    (by simpa using hlist)

theorem sequence_element_location_witness :
    convertToStringKeysRecursive
        (.rawMap [(.str "a", .list [.rawMap [(.str "b", .scalar (.int 1))],
          .rawMap [(.int 2, .scalar (.int 3))]])]) "" =
      (Value.nil, some (.errorf "Non-string key in a[1]: 2")) :=
  (sequence_element_location "a" [] [] [] []
    [.rawMap [(.str "b", .scalar (.int 1))]] [] (.int 2) (.scalar (.int 3))
    rfl rfl rfl rfl).1

/-- C6: on the empty sequence the normaliser returns the nil slice, not an
empty sequence, whatever the path. -/
theorem empty_sequence_becomes_nil (keyPrefix : String) :
    convertToStringKeysRecursive (.list []) keyPrefix = (.nilList, none) ∧
      Value.nilList ≠ Value.list [] := by
  refine ⟨?_, by simp⟩
  simp [convertToStringKeysRecursive, convertListLoop, Value.ofSlice]

/-- C7: when the first `Decode` reports end-of-input, `Load` returns the empty,
non-nil settings map and a nil error, whatever the options. -/
theorem load_empty_stream {ρ : Type} (decode : ρ → List (Scalar × Value) × Option GoError)
    (r : ρ) (ops : List (Options → Options)) (s : List (Scalar × Value))
    (heof : decode r = (s, some GoError.eof)) :
    Load decode r ops = .returned (some []) none := by
  simp [Load, heof]

theorem load_empty_stream_witness :
    Load (fun _ : Unit => ([], some GoError.eof)) () [fun _ => ⟨"app"⟩] =
      .returned (some []) none :=
  load_empty_stream (fun _ : Unit => ([], some GoError.eof)) () [fun _ => ⟨"app"⟩] [] rfl

/-- C8: when unmarshalling leaves the raw map empty and reports no error, and
the options carry no prefix, `LoadData` returns the empty, non-nil settings map
and a nil error. -/
theorem loadData_empty_buffer (unmarshal : List Nat → List (Scalar × Value) × Option GoError)
    (data : List Nat) (ops : List (Options → Options))
    (hempty : unmarshal data = ([], none))
    (hnone : (applyOptions ops).prefix_ = "") :
    LoadData unmarshal data ops = .returned (some []) none := by
  simp [LoadData, hempty, hnone, convertToStringKeysRecursive, convertMapLoop]

theorem loadData_empty_buffer_witness :
    LoadData (fun _ => ([], none)) [] [] = .returned (some []) none :=
  loadData_empty_buffer (fun _ => ([], none)) [] [] rfl rfl

/-- C9: when the decoded document normalises to the settings map `s`, `Load`
and `LoadData` return the single-entry map from the prefix to `s` if the prefix
is non-empty, and `s` itself if it is empty, with a nil error. -/
theorem load_prefix_wrapping {ρ : Type}
    (decode : ρ → List (Scalar × Value) × Option GoError) (r : ρ)
    (unmarshal : List Nat → List (Scalar × Value) × Option GoError) (data : List Nat)
    (ops : List (Options → Options)) (document : List (Scalar × Value))
    (s : List (String × Value))
    (hdecode : decode r = (document, none)) (hunmarshal : unmarshal data = (document, none))
    (hconv : convertToStringKeysRecursive (.rawMap document) "" = (.strMap s, none)) :
    ((applyOptions ops).prefix_ ≠ "" →
      Load decode r ops = .returned
        (some [((applyOptions ops).prefix_, .strMap s)]) none ∧
      LoadData unmarshal data ops = .returned
        (some [((applyOptions ops).prefix_, .strMap s)]) none) ∧
    ((applyOptions ops).prefix_ = "" →
      Load decode r ops = .returned (some s) none ∧
      LoadData unmarshal data ops = .returned (some s) none) := by
  constructor
  · intro hp
    simp [Load, LoadData, hdecode, hunmarshal, hconv, hp]
  · intro hp
    simp [Load, LoadData, hdecode, hunmarshal, hconv, hp]

theorem load_prefix_wrapping_witness :
    Load (fun _ : Unit => ([(Scalar.str "x", Value.scalar (.int 1))], none)) ()
        [fun _ => ⟨"app"⟩] =
      .returned (some [("app", .strMap [("x", .scalar (.int 1))])]) none ∧
    LoadData (fun _ => ([(Scalar.str "x", Value.scalar (.int 1))], none)) []
        [fun _ => ⟨"app"⟩] =
      .returned (some [("app", .strMap [("x", .scalar (.int 1))])]) none :=
  (load_prefix_wrapping (fun _ : Unit => ([(Scalar.str "x", Value.scalar (.int 1))], none)) ()
    (fun _ => ([(Scalar.str "x", Value.scalar (.int 1))], none)) [] [fun _ => ⟨"app"⟩]
    [(Scalar.str "x", Value.scalar (.int 1))] [("x", .scalar (.int 1))] rfl rfl rfl).1
    (by decide)

/-- C10, as stated, fails: with the prefix `app`, `Load` on an empty stream
succeeds with the empty settings map; it does not return a single-entry map
under `app`. -/
theorem load_empty_stream_not_wrapped :
    (applyOptions [fun _ => ⟨"app"⟩]).prefix_ = "app" ∧
      Load (fun _ : Unit => ([], some GoError.eof)) () [fun _ => ⟨"app"⟩] =
        .returned (some []) none ∧
      ¬ ∃ v : Value, Load (fun _ : Unit => ([], some GoError.eof)) () [fun _ => ⟨"app"⟩] =
        .returned (some [("app", v)]) none := by
  refine ⟨rfl, rfl, ?_⟩
  rintro ⟨v, hv⟩
  simp [Load] at hv

/-- C10, amended: with a non-empty prefix `p`, a successful `LoadData`, and a
successful `Load` whose decoder read a document, return the single-entry map
from `p` to the normalised settings of the source; the only other successful
`Load` is on end-of-input, and returns the empty settings map. -/
theorem load_success_wrapped_unless_eof {ρ : Type}
    (decode : ρ → List (Scalar × Value) × Option GoError) (r : ρ)
    (unmarshal : List Nat → List (Scalar × Value) × Option GoError) (data : List Nat)
    (ops : List (Options → Options)) (settings : Option (List (String × Value)))
    (hp : (applyOptions ops).prefix_ ≠ "") :
    (Load decode r ops = .returned settings none →
      ((decode r).2 = some GoError.eof ∧ settings = some []) ∨
      ((decode r).2 = none ∧ ∃ s,
        convertToStringKeysRecursive (.rawMap (decode r).1) "" = (.strMap s, none) ∧
        settings = some [((applyOptions ops).prefix_,
          .strMap s)])) ∧
    (LoadData unmarshal data ops = .returned settings none →
      (unmarshal data).2 = none ∧ ∃ s,
        convertToStringKeysRecursive (.rawMap (unmarshal data).1) "" = (.strMap s, none) ∧
        settings = some [((applyOptions ops).prefix_,
          .strMap s)]) := by
  constructor
  · intro h
    unfold Load at h
    generalize hd : decode r = d at h ⊢
    obtain ⟨raw, derr⟩ := d
    cases derr with
    | some err =>
      by_cases he : err = GoError.eof
      · subst he
        simp at h
        simp [h]
      · simp [he] at h
    | none =>
      simp only at h ⊢
      generalize hc : convertToStringKeysRecursive (.rawMap raw) "" = c at h ⊢
      obtain ⟨cv, ce⟩ := c
      cases ce with
      | some err => simp at h
      | none =>
        cases cv with
        | strMap s =>
          simp [hp] at h
          simp [h]
        | scalar x => simp at h
        | list x => simp at h
        | nilList => simp at h
        | rawMap x => simp at h
  · intro h
    unfold LoadData at h
    generalize hd : unmarshal data = d at h ⊢
    obtain ⟨raw, derr⟩ := d
    cases derr with
    | some err => simp at h
    | none =>
      simp only at h ⊢
      generalize hc : convertToStringKeysRecursive (.rawMap raw) "" = c at h ⊢
      obtain ⟨cv, ce⟩ := c
      cases ce with
      | some err => simp at h
      | none =>
        cases cv with
        | strMap s =>
          simp [hp] at h
          simp [h]
        | scalar x => simp at h
        | list x => simp at h
        | nilList => simp at h
        | rawMap x => simp at h

theorem load_success_wrapped_unless_eof_witness :
    (applyOptions [fun _ => ⟨"app"⟩]).prefix_ ≠ "" ∧
    ((none : Option GoError) = some GoError.eof ∧
        some [("app", Value.strMap [("x", .scalar (.int 1))])] = some [] ∨
      (none : Option GoError) = none ∧ ∃ s,
        convertToStringKeysRecursive (.rawMap [(.str "x", .scalar (.int 1))]) "" =
          (.strMap s, none) ∧
        some [("app", Value.strMap [("x", .scalar (.int 1))])] = some [("app", .strMap s)]) ∧
    ((none : Option GoError) = none ∧ ∃ s,
      convertToStringKeysRecursive (.rawMap [(.str "x", .scalar (.int 1))]) "" =
        (.strMap s, none) ∧
      some [("app", Value.strMap [("x", .scalar (.int 1))])] = some [("app", .strMap s)]) :=
  have h := load_success_wrapped_unless_eof
    (fun _ : Unit => ([(Scalar.str "x", Value.scalar (.int 1))], none)) ()
    (fun _ => ([(Scalar.str "x", Value.scalar (.int 1))], none)) [] [fun _ => ⟨"app"⟩]
    (some [("app", .strMap [("x", .scalar (.int 1))])]) (by decide)
  ⟨by decide, h.1 rfl, h.2 rfl⟩

/-! ## Parse errors -/

/-- C11: when the decoder reports an error other than end-of-input, `Load`
returns nil settings and that error wrapped with the message
`failed to read settings`; `Load` surfaces an error of the decoder exactly when
it is not end-of-input. -/
theorem load_wraps_decoder_error {ρ : Type}
    (decode : ρ → List (Scalar × Value) × Option GoError) (r : ρ)
    (ops : List (Options → Options)) (s : List (Scalar × Value)) (e : GoError)
    (hdecode : decode r = (s, some e)) :
    (e ≠ GoError.eof →
      Load decode r ops = .returned none (some (.wrap e "failed to read settings")) ∧
      (GoError.wrap e "failed to read settings").message =
        "failed to read settings: " ++ e.message) ∧
    ((∃ settings err, Load decode r ops = .returned settings (some err)) ↔
      e ≠ GoError.eof) := by
  refine ⟨fun hne => ⟨by simp [Load, hdecode, hne], by simp [GoError.message]⟩, ?_⟩
  by_cases he : e = GoError.eof
  · simp [Load, hdecode, he]
  · simp [Load, hdecode, he]

theorem load_wraps_decoder_error_witness :
    Load (fun _ : Unit => ([], some (GoError.external "yaml: line 1: mapping values are not allowed in this context"))) () [] =
      .returned none (some (.wrap
        (.external "yaml: line 1: mapping values are not allowed in this context")
        "failed to read settings")) :=
  ((load_wraps_decoder_error
    (fun _ : Unit => ([], some (GoError.external "yaml: line 1: mapping values are not allowed in this context")))
    () [] [] (.external "yaml: line 1: mapping values are not allowed in this context")
    rfl).1 (by decide)).1

/-- C12: on a buffer whose unmarshalling fails, here the bytes of `a: [` with
the error of the YAML layer, `LoadData` returns nil settings and that error
itself, not wrapped with `failed to read settings`, whereas `Load` wraps the
same error of the same input. -/
theorem loadData_returns_parse_error_unwrapped :
    LoadData (fun _ => ([], some (.external "yaml: line 1: did not find expected node content")))
        [97, 58, 32, 91] [] =
      .returned none (some (.external "yaml: line 1: did not find expected node content")) ∧
    Load (fun _ : List Nat =>
        ([], some (.external "yaml: line 1: did not find expected node content")))
        [97, 58, 32, 91] [] =
      .returned none (some (.wrap
        (.external "yaml: line 1: did not find expected node content")
        "failed to read settings")) ∧
    GoError.external "yaml: line 1: did not find expected node content" ≠
      .wrap (.external "yaml: line 1: did not find expected node content")
        "failed to read settings" := by
  refine ⟨rfl, rfl, by simp⟩

/-! ## Loading several files -/

theorem foldl_mergeNextFile_failed {σ : Type}
    (loadFile : String → List (Options → Options) → σ → Outcome × σ)
    (merge : Option (List (String × Value)) → Option (List (String × Value)) →
      Option (List (String × Value)) × Option GoError)
    (ops : List (Options → Options)) (paths : List String) (acc : Outcome × σ)
    (hfailed : ∀ m, acc.1 ≠ .returned m none) :
    paths.foldl (mergeNextFile loadFile merge ops) acc = acc := by
  induction paths with
  | nil => rfl
  | cons path rest ih =>
    have hstep : mergeNextFile loadFile merge ops acc path = acc := by
      obtain ⟨o, w⟩ := acc
      cases o with
      | panicked => rfl
      | returned m err =>
        cases err with
        | none => exact absurd rfl (hfailed m)
        | some e => rfl
    rw [List.foldl_cons, hstep, ih]

theorem loadFilesLoop_eq_foldl {σ : Type}
    (loadFile : String → List (Options → Options) → σ → Outcome × σ)
    (merge : Option (List (String × Value)) → Option (List (String × Value)) →
      Option (List (String × Value)) × Option GoError)
    (ops : List (Options → Options)) (paths : List String)
    (m : Option (List (String × Value))) (world : σ) :
    loadFilesLoop loadFile merge ops paths m world =
      paths.foldl (mergeNextFile loadFile merge ops) (.returned m none, world) := by
  induction paths generalizing m world with
  | nil => rfl
  | cons path rest ih =>
    simp only [loadFilesLoop, List.foldl_cons, mergeNextFile]
    generalize loadFile path ops world = loaded
    obtain ⟨o, w1⟩ := loaded
    cases o with
    | panicked =>
      simp only
      rw [foldl_mergeNextFile_failed]
      intro m0
      simp
    | returned settings err =>
      cases err with
      | some e =>
        simp only
        rw [foldl_mergeNextFile_failed]
        intro m0
        simp
      | none =>
        simp only
        generalize merge m settings = merged
        obtain ⟨m1, merr⟩ := merged
        cases merr with
        | some e =>
          simp only
          rw [foldl_mergeNextFile_failed]
          intro m0
          simp
        | none => exact ih m1 w1

theorem loadFilesLoop_append {σ : Type}
    (loadFile : String → List (Options → Options) → σ → Outcome × σ)
    (merge : Option (List (String × Value)) → Option (List (String × Value)) →
      Option (List (String × Value)) × Option GoError)
    (ops : List (Options → Options)) (before after : List String)
    (m m1 : Option (List (String × Value))) (world world1 : σ)
    (hbefore : loadFilesLoop loadFile merge ops before m world = (.returned m1 none, world1)) :
    loadFilesLoop loadFile merge ops (before ++ after) m world =
      loadFilesLoop loadFile merge ops after m1 world1 := by
  rw [loadFilesLoop_eq_foldl] at hbefore
  rw [loadFilesLoop_eq_foldl, loadFilesLoop_eq_foldl, List.foldl_append, hbefore]

/-- C13: `LoadFiles` is the left fold over the paths, in the given order and
from the empty settings, of loading the path with the same options and merging
it into the settings so far; on no path it returns the empty settings and no
error; when the load or the merge of a path fails after the paths before it
succeeded, it returns nil settings and that error, and the state is the one the
failing load left: no later path is loaded. -/
theorem loadFiles_is_left_fold {σ : Type}
    (loadFile : String → List (Options → Options) → σ → Outcome × σ)
    (merge : Option (List (String × Value)) → Option (List (String × Value)) →
      Option (List (String × Value)) × Option GoError)
    (paths : List String) (ops : List (Options → Options)) (world : σ) :
    LoadFiles loadFile merge paths ops world = foldFiles loadFile merge paths ops world ∧
    LoadFiles loadFile merge [] ops world = (.returned (some []) none, world) ∧
    (∀ (before after : List String) (path : String) (m settings : Option (List (String × Value)))
      (err : GoError) (world1 world2 : σ),
      paths = before ++ path :: after →
      LoadFiles loadFile merge before ops world = (.returned m none, world1) →
      (loadFile path ops world1 = (.returned settings (some err), world2) ∨
        (loadFile path ops world1 = (.returned settings none, world2) ∧
          (merge m settings).2 = some err)) →
      LoadFiles loadFile merge paths ops world = (.returned none (some err), world2)) := by
  refine ⟨loadFilesLoop_eq_foldl loadFile merge ops paths (some []) world, rfl, ?_⟩
  intro before after path m settings err world1 world2 hpaths hbefore hfail
  subst hpaths
  unfold LoadFiles at hbefore ⊢
  rw [loadFilesLoop_append loadFile merge ops before (path :: after) _ m world world1 hbefore]
  rcases hfail with hload | ⟨hload, hmerge⟩
  · simp [loadFilesLoop, hload]
  · simp only [loadFilesLoop, hload]
    generalize merge m settings = merged at hmerge
    obtain ⟨m1, merr⟩ := merged
    simp only at hmerge
    subst hmerge
    rfl

theorem loadFiles_is_left_fold_witness :
    LoadFiles recordingLoadFile appendMerge ["a", "b"] [] [] =
      (.returned (some [("a", .scalar (.int 1)), ("b", .scalar (.int 1))]) none, ["a", "b"]) ∧
    LoadFiles recordingLoadFile appendMerge ["a", "missing", "b"] [] [] =
      (.returned none (some (.external "open missing: no such file or directory")),
        ["a", "missing"]) :=
  ⟨((loadFiles_is_left_fold recordingLoadFile appendMerge ["a", "b"] [] []).1).trans rfl,
    (loadFiles_is_left_fold recordingLoadFile appendMerge ["a", "missing", "b"] [] []).2.2
      ["a"] ["b"] "missing" (some [("a", .scalar (.int 1))]) none
      (.external "open missing: no such file or directory") ["a"] ["a", "missing"]
      rfl rfl (Or.inl rfl)⟩

/-! ## File descriptors -/

/-- C14: on a path that opens, `LoadFile` leaves the descriptor it acquired
open when it returns: with none open before the call, descriptor 3 is open
after it, on success, on a parse failure and on a normalisation failure. -/
theorem loadFile_leaves_descriptor_open :
    LoadFile sampleOpen sampleDecode "app.yaml" [] [] =
      (.returned (some [("x", .scalar (.int 1))]) none, [3]) ∧
    LoadFile sampleOpen sampleDecode "broken.yaml" [] [] =
      (.returned none (some (.wrap
        (.external "yaml: line 1: did not find expected node content")
        "failed to read settings")), [3]) ∧
    LoadFile sampleOpen sampleDecode "keys.yaml" [] [] =
      (.returned none (some (.errorf "Non-string key at top level: 1")), [3]) ∧
    ([3] : List Nat) ≠ [] := by
  refine ⟨rfl, rfl, rfl, by simp⟩

/-! ## Fail-fast normalisation -/

mutual
theorem convert_error_aux : ∀ (v : Value) (keyPrefix : String),
    ((convertToStringKeysRecursive v keyPrefix).2 ≠ none →
      (convertToStringKeysRecursive v keyPrefix).1 = Value.nil) ∧
    (convertToStringKeysRecursive v keyPrefix).2 =
      (firstInvalidKey v keyPrefix).map (fun found => formatInvalidKeyError found.1 found.2)
  | .scalar s, keyPrefix => by simp [convertToStringKeysRecursive, firstInvalidKey]
  | .strMap entries, keyPrefix => by simp [convertToStringKeysRecursive, firstInvalidKey]
  | .nilList, keyPrefix => by simp [convertToStringKeysRecursive, firstInvalidKey]
  | .list xs, keyPrefix => by
    simp only [convertToStringKeysRecursive, firstInvalidKey]
    exact convertListLoop_error_aux xs keyPrefix 0 none
  | .rawMap entries, keyPrefix => by
    simp only [convertToStringKeysRecursive, firstInvalidKey]
    exact convertMapLoop_error_aux entries keyPrefix []
theorem convertMapLoop_error_aux : ∀ (entries : List (Scalar × Value)) (keyPrefix : String)
    (dict : List (String × Value)),
    ((convertMapLoop entries keyPrefix dict).2 ≠ none →
      (convertMapLoop entries keyPrefix dict).1 = Value.nil) ∧
    (convertMapLoop entries keyPrefix dict).2 =
      (firstInvalidKeyOfEntries entries keyPrefix).map
        (fun found => formatInvalidKeyError found.1 found.2)
  | [], keyPrefix, dict => by simp [convertMapLoop, firstInvalidKeyOfEntries]
  | (key, entry) :: rest, keyPrefix, dict => by
    cases key with
    | str str =>
      have hv := (convert_error_aux entry
        (if keyPrefix = "" then str else keyPrefix ++ "." ++ str)).2
      simp only [convertMapLoop, firstInvalidKeyOfEntries]
      generalize hc : convertToStringKeysRecursive entry
        (if keyPrefix = "" then str else keyPrefix ++ "." ++ str) = c at hv
      obtain ⟨cv, ce⟩ := c
      generalize hf : firstInvalidKey entry
        (if keyPrefix = "" then str else keyPrefix ++ "." ++ str) = f at hv
      cases ce with
      | none =>
        cases f with
        | none => exact convertMapLoop_error_aux rest keyPrefix (mapSet dict str cv)
        | some found => simp at hv
      | some err =>
        cases f with
        | none => simp at hv
        | some found => simpa using hv
    | int i => simp [convertMapLoop, firstInvalidKeyOfEntries]
    | bool b => simp [convertMapLoop, firstInvalidKeyOfEntries]
    | float t => simp [convertMapLoop, firstInvalidKeyOfEntries]
    | null => simp [convertMapLoop, firstInvalidKeyOfEntries]
theorem convertListLoop_error_aux : ∀ (xs : List Value) (keyPrefix : String) (index : Nat)
    (convertedList : Option (List Value)),
    ((convertListLoop xs keyPrefix index convertedList).2 ≠ none →
      (convertListLoop xs keyPrefix index convertedList).1 = Value.nil) ∧
    (convertListLoop xs keyPrefix index convertedList).2 =
      (firstInvalidKeyOfList xs keyPrefix index).map
        (fun found => formatInvalidKeyError found.1 found.2)
  | [], keyPrefix, index, convertedList => by simp [convertListLoop, firstInvalidKeyOfList]
  | entry :: rest, keyPrefix, index, convertedList => by
    have hv := (convert_error_aux entry (keyPrefix ++ "[" ++ toString index ++ "]")).2
    simp only [convertListLoop, firstInvalidKeyOfList]
    generalize hc : convertToStringKeysRecursive entry
      (keyPrefix ++ "[" ++ toString index ++ "]") = c at hv
    obtain ⟨cv, ce⟩ := c
    generalize hf : firstInvalidKey entry (keyPrefix ++ "[" ++ toString index ++ "]") = f at hv
    cases ce with
    | none =>
      cases f with
      | none => exact convertListLoop_error_aux rest keyPrefix (index + 1) (goAppend convertedList cv)
      | some found => simp at hv
    | some err =>
      cases f with
      | none => simp at hv
      | some found => simpa using hv
end

/-- C15: when the normaliser returns an error the value beside it is nil, the
error is the one of the first non-string key met in traversal order, and `Load`
and `LoadData` return nil settings with that same error. -/
theorem convert_fails_fast {ρ : Type} (tree : Value) (keyPrefix : String)
    (decode : ρ → List (Scalar × Value) × Option GoError) (r : ρ)
    (unmarshal : List Nat → List (Scalar × Value) × Option GoError) (data : List Nat)
    (ops : List (Options → Options)) :
    ((convertToStringKeysRecursive tree keyPrefix).2 ≠ none →
      (convertToStringKeysRecursive tree keyPrefix).1 = Value.nil) ∧
    (convertToStringKeysRecursive tree keyPrefix).2 =
      (firstInvalidKey tree keyPrefix).map
        (fun found => formatInvalidKeyError found.1 found.2) ∧
    (∀ (s : List (Scalar × Value)) (err : GoError),
      (convertToStringKeysRecursive (.rawMap s) "").2 = some err →
      (decode r = (s, none) → Load decode r ops = .returned none (some err)) ∧
      (unmarshal data = (s, none) → LoadData unmarshal data ops = .returned none (some err))) := by
  refine ⟨(convert_error_aux tree keyPrefix).1, (convert_error_aux tree keyPrefix).2, ?_⟩
  intro s err herr
  generalize hc : convertToStringKeysRecursive (.rawMap s) "" = c at herr
  obtain ⟨cv, ce⟩ := c
  simp only at herr
  subst herr
  exact ⟨fun hd => by simp [Load, hd, hc], fun hu => by simp [LoadData, hu, hc]⟩

theorem convert_fails_fast_witness :
    convertToStringKeysRecursive
        (.rawMap [(.str "a", .list [.rawMap [(.int 2, .scalar (.int 3))]]),
          (.int 7, .scalar .null)]) "" =
      (Value.nil, some (.errorf "Non-string key in a[0]: 2")) ∧
    Load (fun _ : Unit => ([(Scalar.str "a", Value.list [.rawMap [(.int 2, .scalar (.int 3))]]),
        (.int 7, .scalar .null)], none)) () [] =
      .returned none (some (.errorf "Non-string key in a[0]: 2")) :=
  have h := convert_fails_fast
    (.rawMap [(.str "a", .list [.rawMap [(.int 2, .scalar (.int 3))]]), (.int 7, .scalar .null)])
    ""
    (fun _ : Unit => ([(Scalar.str "a", Value.list [.rawMap [(.int 2, .scalar (.int 3))]]),
      (.int 7, .scalar .null)], none)) () (fun _ => ([], none)) [] []
  ⟨Prod.ext (h.1 (by rw [h.2.1]; decide)) (h.2.1.trans rfl),
    (h.2.2 [(.str "a", .list [.rawMap [(.int 2, .scalar (.int 3))]]), (.int 7, .scalar .null)]
      (.errorf "Non-string key in a[0]: 2") rfl).1 rfl⟩

/-! ## The type assertion -/

theorem convertMapLoop_result (entries : List (Scalar × Value)) (keyPrefix : String)
    (dict : List (String × Value)) :
    (∃ err, convertMapLoop entries keyPrefix dict = (Value.nil, some err)) ∨
      ∃ out, convertMapLoop entries keyPrefix dict = (.strMap out, none) := by
  induction entries generalizing dict with
  | nil => exact Or.inr ⟨dict, rfl⟩
  | cons e rest ih =>
    obtain ⟨key, entry⟩ := e
    cases key with
    | str str =>
      simp only [convertMapLoop]
      generalize convertToStringKeysRecursive entry
        (if keyPrefix = "" then str else keyPrefix ++ "." ++ str) = c
      obtain ⟨cv, ce⟩ := c
      cases ce with
      | none => exact ih _
      | some err => exact Or.inl ⟨err, rfl⟩
    | int i => exact Or.inl ⟨_, rfl⟩
    | bool b => exact Or.inl ⟨_, rfl⟩
    | float t => exact Or.inl ⟨_, rfl⟩
    | null => exact Or.inl ⟨_, rfl⟩

/-- C16: when the normaliser succeeds on a raw map, under any path, its result
is a string-keyed map; hence the type assertion of `Load` and `LoadData` never
panics. -/
theorem convert_raw_map_gives_string_map {ρ : Type} (m : List (Scalar × Value))
    (keyPrefix : String) (decode : ρ → List (Scalar × Value) × Option GoError) (r : ρ)
    (unmarshal : List Nat → List (Scalar × Value) × Option GoError) (data : List Nat)
    (ops : List (Options → Options)) :
    ((convertToStringKeysRecursive (.rawMap m) keyPrefix).2 = none →
      ∃ settings, (convertToStringKeysRecursive (.rawMap m) keyPrefix).1 = .strMap settings) ∧
    Load decode r ops ≠ .panicked ∧ LoadData unmarshal data ops ≠ .panicked := by
  refine ⟨?_, ?_, ?_⟩
  · intro hok
    simp only [convertToStringKeysRecursive] at hok ⊢
    rcases convertMapLoop_result m keyPrefix [] with ⟨err, h⟩ | ⟨out, h⟩
    · simp [h] at hok
    · exact ⟨out, by simp [h]⟩
  · unfold Load
    generalize decode r = d
    obtain ⟨s, derr⟩ := d
    cases derr with
    | some e => by_cases he : e = GoError.eof <;> simp [he]
    | none =>
      simp only [convertToStringKeysRecursive]
      rcases convertMapLoop_result s "" [] with ⟨err, h⟩ | ⟨out, h⟩
      · simp [h]
      · by_cases hp : (applyOptions ops).prefix_ = "" <;> simp [h, hp]
  · unfold LoadData
    generalize unmarshal data = d
    obtain ⟨s, derr⟩ := d
    cases derr with
    | some e => simp
    | none =>
      simp only [convertToStringKeysRecursive]
      rcases convertMapLoop_result s "" [] with ⟨err, h⟩ | ⟨out, h⟩
      · simp [h]
      · by_cases hp : (applyOptions ops).prefix_ = "" <;> simp [h, hp]

theorem convert_raw_map_gives_string_map_witness :
    ∃ settings, (convertToStringKeysRecursive
      (.rawMap [(.str "x", .scalar (.int 1))]) "p").1 = .strMap settings :=
  (convert_raw_map_gives_string_map [(.str "x", .scalar (.int 1))] "p"
    (fun _ : Unit => ([], none)) () (fun _ => ([], none)) [] []).1 rfl

/-! ## Independence of the enumeration order -/

theorem retypedEntries_eq_map (entries : List (Scalar × Value)) :
    retypedEntries entries = entries.map (fun e => (e.1.text, e.2.retyped)) := by
  induction entries with
  | nil => rfl
  | cons e rest ih => obtain ⟨k, v⟩ := e; simp [retypedEntries, ih]

theorem entriesKeysDistinct_iff (entries : List (Scalar × Value)) :
    entriesKeysDistinct entries = true ↔ ∀ e ∈ entries, e.2.keysDistinct = true := by
  induction entries with
  | nil => simp [entriesKeysDistinct]
  | cons e rest ih => obtain ⟨k, v⟩ := e; simp [entriesKeysDistinct, ih]

theorem entriesHaveNonStringKey_perm {fs gs : List (Scalar × Value)} (hperm : fs.Perm gs) :
    entriesHaveNonStringKey fs = entriesHaveNonStringKey gs := by
  have h : entriesHaveNonStringKey fs = false ↔ entriesHaveNonStringKey gs = false := by
    rw [entriesHaveNonStringKey_eq_false_iff, entriesHaveNonStringKey_eq_false_iff]
    exact ⟨fun hall e he => hall e (hperm.mem_iff.mpr he),
      fun hall e he => hall e (hperm.mem_iff.mp he)⟩
  cases hf : entriesHaveNonStringKey fs <;> cases hg : entriesHaveNonStringKey gs <;>
    simp [hf, hg] at h ⊢

theorem foldl_goAppend_some (ys l : List Value) :
    ys.foldl goAppend (some l) = some (l ++ ys) := by
  induction ys generalizing l with
  | nil => simp
  | cons y ys ih => simp [goAppend, ih]

mutual
theorem reordered_hasNonStringKey : ∀ {a b : Value}, Reordered a b →
    a.hasNonStringKey = b.hasNonStringKey
  | _, _, .scalar s => rfl
  | _, _, .nilList => rfl
  | _, _, .list h => by
    simp only [Value.hasNonStringKey]
    exact reorderedList_hasNonStringKey h
  | _, _, .rawMap h hperm => by
    simp only [Value.hasNonStringKey]
    rw [reorderedRaw_hasNonStringKey h]
    exact entriesHaveNonStringKey_perm hperm
  | _, _, .strMap h hperm => rfl
theorem reorderedList_hasNonStringKey : ∀ {xs ys : List Value}, ReorderedList xs ys →
    listHasNonStringKey xs = listHasNonStringKey ys
  | _, _, .nil => rfl
  | _, _, .cons h hrest => by
    simp only [listHasNonStringKey]
    rw [reordered_hasNonStringKey h, reorderedList_hasNonStringKey hrest]
theorem reorderedRaw_hasNonStringKey : ∀ {es fs : List (Scalar × Value)}, ReorderedRaw es fs →
    entriesHaveNonStringKey es = entriesHaveNonStringKey fs
  | _, _, .nil => rfl
  | _, _, .cons h hrest => by
    simp only [entriesHaveNonStringKey]
    rw [reordered_hasNonStringKey h, reorderedRaw_hasNonStringKey hrest]
end

mutual
theorem reordered_keysDistinct : ∀ {a b : Value}, Reordered a b →
    a.keysDistinct = true → b.keysDistinct = true
  | _, _, .scalar s, _ => rfl
  | _, _, .nilList, _ => rfl
  | _, _, .list h, hd => by
    simp only [Value.keysDistinct] at hd ⊢
    exact reorderedList_keysDistinct h hd
  | _, _, .rawMap h hperm, hd => by
    simp only [Value.keysDistinct, Bool.and_eq_true, decide_eq_true_eq] at hd ⊢
    obtain ⟨hkeys, hvalues⟩ := reorderedRaw_keysDistinct h hd.2
    constructor
    · rw [← (hperm.map Prod.fst).nodup_iff, ← hkeys]
      exact hd.1
    · rw [entriesKeysDistinct_iff] at hvalues ⊢
      exact fun e he => hvalues e (hperm.mem_iff.mpr he)
  | _, _, .strMap h hperm, _ => rfl
theorem reorderedList_keysDistinct : ∀ {xs ys : List Value}, ReorderedList xs ys →
    listKeysDistinct xs = true → listKeysDistinct ys = true
  | _, _, .nil, _ => rfl
  | _, _, .cons h hrest, hd => by
    simp only [listKeysDistinct, Bool.and_eq_true] at hd ⊢
    exact ⟨reordered_keysDistinct h hd.1, reorderedList_keysDistinct hrest hd.2⟩
theorem reorderedRaw_keysDistinct : ∀ {es fs : List (Scalar × Value)}, ReorderedRaw es fs →
    entriesKeysDistinct es = true →
    es.map Prod.fst = fs.map Prod.fst ∧ entriesKeysDistinct fs = true
  | _, _, .nil, _ => ⟨rfl, rfl⟩
  | _, _, .cons h hrest, hd => by
    simp only [entriesKeysDistinct, Bool.and_eq_true] at hd ⊢
    obtain ⟨hkeys, hvalues⟩ := reorderedRaw_keysDistinct hrest hd.2
    exact ⟨by simp [hkeys], reordered_keysDistinct h hd.1, hvalues⟩
end

mutual
theorem reordered_retyped : ∀ {a b : Value}, Reordered a b → Reordered a.retyped b.retyped
  | _, _, .scalar s => .scalar s
  | _, _, .nilList => .nilList
  | _, _, .list .nil => .nilList
  | _, _, .list (.cons h hrest) => by
    simp only [Value.retyped]
    exact .list (.cons (reordered_retyped h) (reorderedList_retyped hrest))
  | _, _, .rawMap h hperm => by
    simp only [Value.retyped]
    refine .strMap (reorderedRaw_retyped h) ?_
    rw [retypedEntries_eq_map, retypedEntries_eq_map]
    exact hperm.map _
  | _, _, .strMap h hperm => .strMap h hperm
theorem reorderedList_retyped : ∀ {xs ys : List Value}, ReorderedList xs ys →
    ReorderedList (retypedList xs) (retypedList ys)
  | _, _, .nil => .nil
  | _, _, .cons h hrest => by
    simp only [retypedList]
    exact .cons (reordered_retyped h) (reorderedList_retyped hrest)
theorem reorderedRaw_retyped : ∀ {es fs : List (Scalar × Value)}, ReorderedRaw es fs →
    ReorderedStr (retypedEntries es) (retypedEntries fs)
  | _, _, .nil => .nil
  | _, _, .cons h hrest => by
    simp only [retypedEntries]
    exact .cons (reordered_retyped h) (reorderedRaw_retyped hrest)
end

mutual
theorem convert_retyped_aux : ∀ (v : Value) (keyPrefix : String),
    v.hasNonStringKey = false → v.keysDistinct = true →
    convertToStringKeysRecursive v keyPrefix = (v.retyped, none)
  | .scalar s, keyPrefix, _, _ => by simp [convertToStringKeysRecursive, Value.retyped]
  | .strMap entries, keyPrefix, _, _ => by simp [convertToStringKeysRecursive, Value.retyped]
  | .nilList, keyPrefix, _, _ => by
    simp [convertToStringKeysRecursive, Value.retyped, Value.ofSlice]
  | .list xs, keyPrefix, hk, hd => by
    simp only [Value.hasNonStringKey] at hk
    simp only [Value.keysDistinct] at hd
    have h := convertListLoop_retyped_aux xs keyPrefix 0 none hk hd
    simp only [convertToStringKeysRecursive, h]
    cases xs with
    | nil => simp [retypedList, Value.ofSlice, Value.retyped]
    | cons x xs =>
      simp [retypedList, goAppend, foldl_goAppend_some, Value.ofSlice, Value.retyped]
  | .rawMap entries, keyPrefix, hk, hd => by
    simp only [Value.hasNonStringKey] at hk
    simp only [Value.keysDistinct, Bool.and_eq_true, decide_eq_true_eq] at hd
    have h := convertMapLoop_retyped_aux entries keyPrefix [] hk hd.2 hd.1 (by simp)
    simp [convertToStringKeysRecursive, h, Value.retyped]
theorem convertMapLoop_retyped_aux : ∀ (entries : List (Scalar × Value)) (keyPrefix : String)
    (dict : List (String × Value)),
    entriesHaveNonStringKey entries = false → entriesKeysDistinct entries = true →
    (entries.map Prod.fst).Nodup →
    (∀ s, Scalar.str s ∈ entries.map Prod.fst → s ∉ dict.map Prod.fst) →
    convertMapLoop entries keyPrefix dict = (.strMap (dict ++ retypedEntries entries), none)
  | [], keyPrefix, dict, _, _, _, _ => by simp [convertMapLoop, retypedEntries]
  | (key, entry) :: rest, keyPrefix, dict, hk, hd, hnd, hfresh => by
    simp only [entriesHaveNonStringKey, Bool.or_eq_false_iff, Bool.not_eq_false'] at hk
    simp only [entriesKeysDistinct, Bool.and_eq_true] at hd
    simp only [List.map_cons, List.nodup_cons] at hnd
    obtain ⟨⟨hstr, hentry⟩, hrest⟩ := hk
    cases key with
    | str str =>
      have hv := convert_retyped_aux entry
        (if keyPrefix = "" then str else keyPrefix ++ "." ++ str) hentry hd.1
      have hnew : str ∉ dict.map Prod.fst := hfresh str (by simp)
      have hnext := convertMapLoop_retyped_aux rest keyPrefix (mapSet dict str entry.retyped)
        hrest hd.2 hnd.2
        (by
          intro s hs
          rw [mapSet_of_not_mem dict str _ hnew]
          simp only [List.map_append, List.map_cons, List.map_nil, List.mem_append,
            List.mem_singleton, not_or]
          refine ⟨hfresh s (by simp [hs]), ?_⟩
          intro h
          subst h
          exact hnd.1 hs)
      simp only [convertMapLoop, hv, hnext]
      rw [mapSet_of_not_mem dict str _ hnew]
      simp [retypedEntries, Scalar.text]
    | int i => simp [Scalar.isStr] at hstr
    | bool b => simp [Scalar.isStr] at hstr
    | float t => simp [Scalar.isStr] at hstr
    | null => simp [Scalar.isStr] at hstr
theorem convertListLoop_retyped_aux : ∀ (xs : List Value) (keyPrefix : String) (index : Nat)
    (convertedList : Option (List Value)),
    listHasNonStringKey xs = false → listKeysDistinct xs = true →
    convertListLoop xs keyPrefix index convertedList =
      (Value.ofSlice ((retypedList xs).foldl goAppend convertedList), none)
  | [], keyPrefix, index, convertedList, _, _ => by simp [convertListLoop, retypedList]
  | entry :: rest, keyPrefix, index, convertedList, hk, hd => by
    simp only [listHasNonStringKey, Bool.or_eq_false_iff] at hk
    simp only [listKeysDistinct, Bool.and_eq_true] at hd
    have hv := convert_retyped_aux entry (keyPrefix ++ "[" ++ toString index ++ "]") hk.1 hd.1
    have hnext := convertListLoop_retyped_aux rest keyPrefix (index + 1)
      (goAppend convertedList entry.retyped) hk.2 hd.2
    simp only [convertListLoop, hv, hnext, retypedList, List.foldl_cons]
end

/-- C17: for two enumerations of one tree, whose maps hold each key once, and
any path, the normaliser succeeds on both or fails on both, and when it succeeds
the two results are enumerations of one tree: the same entries in every map. -/
theorem convert_order_independent (a b : Value) (keyPrefix : String)
    (horder : Reordered a b) (hmaps : a.keysDistinct = true) :
    ((convertToStringKeysRecursive a keyPrefix).2 = none ↔
      (convertToStringKeysRecursive b keyPrefix).2 = none) ∧
    ((convertToStringKeysRecursive a keyPrefix).2 = none →
      Reordered (convertToStringKeysRecursive a keyPrefix).1
        (convertToStringKeysRecursive b keyPrefix).1) := by
  have hkeys := reordered_hasNonStringKey horder
  constructor
  · rw [convert_ok_iff_aux, convert_ok_iff_aux, hkeys]
  · intro hok
    have ha : a.hasNonStringKey = false := (convert_ok_iff_aux a keyPrefix).mp hok
    have hb : b.hasNonStringKey = false := hkeys ▸ ha
    rw [convert_retyped_aux a keyPrefix ha hmaps,
      convert_retyped_aux b keyPrefix hb (reordered_keysDistinct horder hmaps)]
    exact reordered_retyped horder

theorem convert_order_independent_witness :
    convertToStringKeysRecursive
        (.rawMap [(.str "a", .scalar (.int 1)), (.str "b", .list [.scalar (.int 2)])]) "" =
      (.strMap [("a", .scalar (.int 1)), ("b", .list [.scalar (.int 2)])], none) ∧
    convertToStringKeysRecursive
        (.rawMap [(.str "b", .list [.scalar (.int 2)]), (.str "a", .scalar (.int 1))]) "" =
      (.strMap [("b", .list [.scalar (.int 2)]), ("a", .scalar (.int 1))], none) ∧
    Reordered
      (convertToStringKeysRecursive
        (.rawMap [(.str "a", .scalar (.int 1)), (.str "b", .list [.scalar (.int 2)])]) "").1
      (convertToStringKeysRecursive
        (.rawMap [(.str "b", .list [.scalar (.int 2)]), (.str "a", .scalar (.int 1))]) "").1 :=
  ⟨rfl, rfl,
    (convert_order_independent
      (.rawMap [(.str "a", .scalar (.int 1)), (.str "b", .list [.scalar (.int 2)])])
      (.rawMap [(.str "b", .list [.scalar (.int 2)]), (.str "a", .scalar (.int 1))]) ""
      (.rawMap
        (.cons (.scalar (.int 1))
          (.cons (.list (.cons (.scalar (.int 2)) .nil)) .nil))
        (List.Perm.swap _ _ _))
      (by decide)).2 rfl⟩

/-! ## Termination -/

theorem nodes_le_entriesNodes (entries : List (Scalar × Value)) (child : Value)
    (h : child ∈ entries.map Prod.snd) : child.nodes ≤ entriesNodes entries := by
  induction entries with
  | nil => simp at h
  | cons e rest ih =>
    obtain ⟨k, v⟩ := e
    simp only [List.map_cons, List.mem_cons] at h
    simp only [entriesNodes]
    rcases h with rfl | h
    · omega
    · have := ih h
      omega

theorem nodes_le_listNodes (xs : List Value) (child : Value) (h : child ∈ xs) :
    child.nodes ≤ listNodes xs := by
  induction xs with
  | nil => simp at h
  | cons x rest ih =>
    simp only [List.mem_cons] at h
    simp only [listNodes]
    rcases h with rfl | h
    · omega
    · have := ih h
      omega

mutual
theorem convertWithFuel_aux : ∀ (v : Value) (keyPrefix : String) (fuel : Nat),
    v.depth ≤ fuel →
    convertWithFuel fuel v keyPrefix = some (convertToStringKeysRecursive v keyPrefix)
  | .scalar s, keyPrefix, fuel, h => by
    cases fuel with
    | zero => simp [Value.depth] at h
    | succ n => simp [convertWithFuel, convertToStringKeysRecursive]
  | .strMap entries, keyPrefix, fuel, h => by
    cases fuel with
    | zero => simp [Value.depth] at h
    | succ n => simp [convertWithFuel, convertToStringKeysRecursive]
  | .nilList, keyPrefix, fuel, h => by
    cases fuel with
    | zero => simp [Value.depth] at h
    | succ n => simp [convertWithFuel, convertToStringKeysRecursive]
  | .list xs, keyPrefix, fuel, h => by
    cases fuel with
    | zero => simp [Value.depth] at h
    | succ n =>
      simp only [Value.depth, Nat.add_le_add_iff_right] at h
      simp only [convertWithFuel, convertToStringKeysRecursive]
      exact listLoopWith_aux xs keyPrefix 0 none n h
  | .rawMap entries, keyPrefix, fuel, h => by
    cases fuel with
    | zero => simp [Value.depth] at h
    | succ n =>
      simp only [Value.depth, Nat.add_le_add_iff_right] at h
      simp only [convertWithFuel, convertToStringKeysRecursive]
      exact mapLoopWith_aux entries keyPrefix [] n h
theorem mapLoopWith_aux : ∀ (entries : List (Scalar × Value)) (keyPrefix : String)
    (dict : List (String × Value)) (fuel : Nat), entriesDepth entries ≤ fuel →
    mapLoopWith (convertWithFuel fuel) entries keyPrefix dict =
      some (convertMapLoop entries keyPrefix dict)
  | [], keyPrefix, dict, fuel, _ => by simp [mapLoopWith, convertMapLoop]
  | (key, entry) :: rest, keyPrefix, dict, fuel, h => by
    simp only [entriesDepth, Nat.max_le] at h
    cases key with
    | str str =>
      have hv := convertWithFuel_aux entry
        (if keyPrefix = "" then str else keyPrefix ++ "." ++ str) fuel h.1
      simp only [mapLoopWith, convertMapLoop, hv]
      generalize convertToStringKeysRecursive entry
        (if keyPrefix = "" then str else keyPrefix ++ "." ++ str) = c
      obtain ⟨cv, ce⟩ := c
      cases ce with
      | none => exact mapLoopWith_aux rest keyPrefix (mapSet dict str cv) fuel h.2
      | some err => rfl
    | int i => simp [mapLoopWith, convertMapLoop]
    | bool b => simp [mapLoopWith, convertMapLoop]
    | float t => simp [mapLoopWith, convertMapLoop]
    | null => simp [mapLoopWith, convertMapLoop]
theorem listLoopWith_aux : ∀ (xs : List Value) (keyPrefix : String) (index : Nat)
    (convertedList : Option (List Value)) (fuel : Nat), listDepth xs ≤ fuel →
    listLoopWith (convertWithFuel fuel) xs keyPrefix index convertedList =
      some (convertListLoop xs keyPrefix index convertedList)
  | [], keyPrefix, index, convertedList, fuel, _ => by simp [listLoopWith, convertListLoop]
  | entry :: rest, keyPrefix, index, convertedList, fuel, h => by
    simp only [listDepth, Nat.max_le] at h
    have hv := convertWithFuel_aux entry (keyPrefix ++ "[" ++ toString index ++ "]") fuel h.1
    simp only [listLoopWith, convertListLoop, hv]
    generalize convertToStringKeysRecursive entry
      (keyPrefix ++ "[" ++ toString index ++ "]") = c
    obtain ⟨cv, ce⟩ := c
    cases ce with
    | none =>
      exact listLoopWith_aux rest keyPrefix (index + 1) (goAppend convertedList cv) fuel h.2
    | some err => rfl
end

/-- C18: the normaliser returns on every tree: run with a bound on the depth of
its calls, it returns its result as soon as the bound reaches the depth of the
tree, and every recursive call is on a value of an entry or an element of a
sequence, a strictly smaller subtree. -/
theorem convert_terminates (tree : Value) (keyPrefix : String) :
    (∀ fuel, tree.depth ≤ fuel →
      convertWithFuel fuel tree keyPrefix =
        some (convertToStringKeysRecursive tree keyPrefix)) ∧
    (∀ child ∈ tree.children, child.nodes < tree.nodes) := by
  refine ⟨convertWithFuel_aux tree keyPrefix, ?_⟩
  intro child hchild
  cases tree with
  | scalar s => simp [Value.children] at hchild
  | nilList => simp [Value.children] at hchild
  | strMap entries => simp [Value.children] at hchild
  | list xs =>
    have := nodes_le_listNodes xs child hchild
    simp only [Value.nodes]
    omega
  | rawMap entries =>
    have := nodes_le_entriesNodes entries child hchild
    simp only [Value.nodes]
    omega

theorem convert_terminates_witness :
    sampleDocument.depth ≤ 4 ∧
    convertWithFuel 4 sampleDocument "" =
      some (convertToStringKeysRecursive sampleDocument "") ∧
    convertWithFuel 3 sampleDocument "" = none :=
  ⟨by decide, (convert_terminates sampleDocument "").1 4 (by decide), rfl⟩

end Settings
